import Mathlib

/-!
Verification development for the project1 markdown-to-document-model
pipeline.  The Python sources are shallowly embedded: text is `List Char`
(ASCII fragment of Python's `str`), Python dicts are insertion-ordered
association lists, Python sets are insertion-ordered duplicate-free lists
(claims proved here depend on set membership only, never on set iteration
order), and floats are modelled by `ℚ`.
-/

namespace Project1

/-! ### Character classes (ASCII model of Python's str methods / regex classes) -/

/-- Python `str.isalpha` restricted to ASCII (`[A-Za-z]`). -/
def isAlphaPy (c : Char) : Bool :=
  (65 ≤ c.toNat && c.toNat ≤ 90) || (97 ≤ c.toNat && c.toNat ≤ 122)

/-- Python `str.isdigit` restricted to ASCII (`[0-9]`). -/
def isDigitPy (c : Char) : Bool := 48 ≤ c.toNat && c.toNat ≤ 57

/-- Python `str.isalnum` restricted to ASCII (note: `'_'` is not alnum). -/
def isAlnumPy (c : Char) : Bool := isAlphaPy c || isDigitPy c

/-- Python `\s` / default `str.strip` whitespace set. -/
def isSpacePy (c : Char) : Bool :=
  c = ' ' || c = '\t' || c = '\n' || c = '\x0d' || c = '\x0b' || c = '\x0c'

/-- Python regex `\w` restricted to ASCII: `[A-Za-z0-9_]`. -/
def isWordChar (c : Char) : Bool := isAlnumPy c || c = '_'

/-- Character class `[A-Za-z0-9_-]` used by the ID suffix regexes. -/
def isSuffixChar (c : Char) : Bool := isAlnumPy c || c = '_' || c = '-'

/-- Python `str.lower` restricted to ASCII. -/
def lowerChar (c : Char) : Char := c.toLower

/-- Python `str.upper` restricted to ASCII. -/
def upperChar (c : Char) : Char := c.toUpper

/-! ### Basic string operations over `List Char` -/

/-- Python `str.lstrip()` (default whitespace). -/
def lstrip (s : List Char) : List Char := s.dropWhile isSpacePy

/-- Python `str.rstrip()` (default whitespace). -/
def rstrip (s : List Char) : List Char := (s.reverse.dropWhile isSpacePy).reverse

/-- Python `str.strip()` (default whitespace). -/
def strip (s : List Char) : List Char := rstrip (lstrip s)

/-- Python `str.lower()`. -/
def lower (s : List Char) : List Char := s.map lowerChar

/-- Python `str.upper()`. -/
def upper (s : List Char) : List Char := s.map upperChar

/-- Python `str.split('\n')`: `"" ↦ [""]`, separators are not kept. -/
def splitNl : List Char → List (List Char)
  | [] => [[]]
  | c :: rest =>
    let r := splitNl rest
    if c = '\n' then [] :: r
    else
      match r with
      | [] => [[c]]          -- unreachable: splitNl never returns []
      | h :: t => (c :: h) :: t

/-- Python `'\n'.join(lines)`. -/
def joinNl : List (List Char) → List Char
  | [] => []
  | [l] => l
  | l :: rest => l ++ '\n' :: joinNl rest

/-- Python `str.split()` (split on whitespace runs, drops empties). -/
def splitWs (s : List Char) : List (List Char) :=
  let rec go : List Char → List Char → List (List Char)
    | [], acc => if acc = [] then [] else [acc.reverse]
    | c :: rest, acc =>
      if isSpacePy c then
        if acc = [] then go rest [] else acc.reverse :: go rest []
      else go rest (c :: acc)
  go s []

/-- Python `' '.join(words)`. -/
def joinSpace : List (List Char) → List Char
  | [] => []
  | [w] => w
  | w :: rest => w ++ ' ' :: joinSpace rest

/-- UTF-8 byte length of a character (Python `len(line.encode('utf-8'))` summand). -/
def utf8Len (s : List Char) : Nat := (s.map Char.utf8Size).sum

/-! ### Python dicts as insertion-ordered association lists -/

section AssocList

variable {α : Type}

/-- `d.get(k)` / `d[k]` read access. -/
def alLookup (m : List (List Char × α)) (k : List Char) : Option α :=
  match m with
  | [] => none
  | (k', v) :: rest => if k' = k then some v else alLookup rest k

/-- `d[k] = v`: update in place if present, else append (Python dict order). -/
def alInsert (m : List (List Char × α)) (k : List Char) (v : α) :
    List (List Char × α) :=
  match m with
  | [] => [(k, v)]
  | (k', v') :: rest =>
    if k' = k then (k', v) :: rest else (k', v') :: alInsert rest k v

/-- `del d[k]` (no-op when the key is absent). -/
def alErase (m : List (List Char × α)) (k : List Char) : List (List Char × α) :=
  match m with
  | [] => []
  | (k', v') :: rest => if k' = k then rest else (k', v') :: alErase rest k

/-- `k in d`. -/
def alContains (m : List (List Char × α)) (k : List Char) : Bool :=
  (alLookup m k).isSome

end AssocList

/-! ### Python sets as insertion-ordered duplicate-free lists

Only membership in these sets is ever used by the theorems below; the
insertion-order model fixes an arbitrary but harmless iteration order. -/

/-- `s.add(v)`. -/
def setAdd (l : List (List Char)) (v : List Char) : List (List Char) :=
  if v ∈ l then l else l ++ [v]

/-- `s.discard(v)`. -/
def setDiscard (l : List (List Char)) (v : List Char) : List (List Char) :=
  l.filter (fun x => x ≠ v)

/-- `set(xs)`: deduplicate, keeping first occurrences. -/
def setOf (l : List (List Char)) : List (List Char) :=
  l.foldl setAdd []

/-- Map-of-sets: `defaultdict(set)` read access (`d.get(k, set())` and
iteration of a possibly-missing entry agree on this). -/
def mget (m : List (List Char × List (List Char))) (k : List Char) :
    List (List Char) :=
  (alLookup m k).getD []

/-- `d[k].add(v)` on a `defaultdict(set)`: creates the entry when absent. -/
def mapSetAdd (m : List (List Char × List (List Char))) (k v : List Char) :
    List (List Char × List (List Char)) :=
  match alLookup m k with
  | some s => alInsert m k (setAdd s v)
  | none => m ++ [(k, setAdd [] v)]

/-- `d[k].discard(v)` on a `defaultdict(set)`: when absent, an empty entry is
created and kept. -/
def mapSetDiscardKeep (m : List (List Char × List (List Char))) (k v : List Char) :
    List (List Char × List (List Char)) :=
  match alLookup m k with
  | some s => alInsert m k (setDiscard s v)
  | none => m ++ [(k, [])]

/-- `d[k].discard(v)` followed by `if not d[k]: del d[k]` on a
`defaultdict(set)`. -/
def mapSetDiscardDrop (m : List (List Char × List (List Char))) (k v : List Char) :
    List (List Char × List (List Char)) :=
  match alLookup m k with
  | some s =>
    let s' := setDiscard s v
    if s' = [] then alErase m k else alInsert m k s'
  | none => m

section MapLemmas

variable {α : Type}

/-- Keys of a dict are pairwise distinct. -/
def wfm (m : List (List Char × α)) : Prop := (m.map Prod.fst).Nodup

end MapLemmas

/-! ### ID grammar and extraction (id_extraction.py) -/

/-- Shorthand: a string literal as a `List Char`. -/
def chars (s : String) : List Char := s.data

/-- `IDPrefix` enum (id_extraction.py): valid ID prefixes, in declaration order. -/
inductive IDPrefix where
  | requirement
  | component
  | data
  | interface
  | method
  | ui
  | task
  | test
deriving DecidableEq, Repr

/-- `IDPrefix.value`: the marker string of each prefix. -/
def IDPrefix.value : IDPrefix → List Char
  | .requirement => chars "R:"
  | .component => chars "C:"
  | .data => chars "D:"
  | .interface => chars "I:"
  | .method => chars "M:"
  | .ui => chars "UI:"
  | .task => chars "T:"
  | .test => chars "TP:"

/-- All `IDPrefix` members in enum declaration order. -/
def idPrefixes : List IDPrefix :=
  [.requirement, .component, .data, .interface, .method, .ui, .task, .test]

/-- The marker alternation `R:|C:|D:|I:|M:|UI:|T:|TP:` in regex order. -/
def markers : List (List Char) := idPrefixes.map IDPrefix.value

/-- Does `t` start with marker `mk`, compared case-insensitively
(`re.IGNORECASE`; for the ASCII letters and `':'` of the markers this is
lower-casing both sides)? -/
def matchMarkerCI : List Char → List Char → Bool
  | [], _ => true
  | _ :: _, [] => false
  | m :: ms, c :: cs => (lowerChar c = lowerChar m : Bool) && matchMarkerCI ms cs

/-- First marker of the alternation matching at the start of `t` (at most one
marker can match at a given position since no marker is a prefix of another). -/
def findMarker (t : List Char) : Option (List Char) :=
  markers.find? (fun mk => matchMarkerCI mk t)

/-- Strip the trailing hyphens of a suffix run: the trailing `\b` of the ID
regexes makes the greedy `[A-Za-z0-9_-]*` backtrack until the match ends in a
word character, i.e. until the trailing `'-'`s are dropped. -/
def stripTrailingHyphens (run : List Char) : List Char :=
  (run.reverse.dropWhile (fun c => c = '-')).reverse

/-- Match of `(R:|C:|D:|I:|M:|UI:|T:|TP:)([A-Za-z0-9][A-Za-z0-9_-]*)\b` with
`re.IGNORECASE` at position 0 of `t`.  Returns
(group 1 in original case, group 2, text after the whole match). -/
def idTokenMatch (t : List Char) : Option (List Char × List Char × List Char) :=
  match findMarker t with
  | none => none
  | some mk =>
    let pfxStr := t.take mk.length
    let rest1 := t.drop mk.length
    let run := rest1.takeWhile isSuffixChar
    match run with
    | [] => none
    | c :: _ =>
      if isAlnumPy c then
        let suffix := stripTrailingHyphens run
        if suffix = [] then none
        else some (pfxStr, suffix, t.drop (mk.length + suffix.length))
      else none

/-- `IDValidator._is_valid_suffix` (id_extraction.py).  The source indexes
`suffix[0]` under the caller's non-emptiness guard; the empty case returns
`false` here. -/
def validatorIsValidSuffix (suffix pfxStr : List Char) : Bool :=
  match suffix with
  | [] => false
  | c :: _ =>
    (if pfxStr = chars "T:" || pfxStr = chars "TP:" then isAlnumPy c
     else isAlphaPy c)
    && suffix.all (fun ch => isAlnumPy ch || ch = '_' || ch = '-')

/-- `IDValidator.validate_id_format` (id_extraction.py). -/
def validateIdFormat (idString : List Char) : Bool :=
  if idString = [] then false
  else
    markers.any (fun pfx =>
      if (lower pfx).isPrefixOf (lower idString) then
        let actualPfx := idString.take pfx.length
        let suffix := idString.drop pfx.length
        (!suffix.isEmpty) && validatorIsValidSuffix suffix actualPfx
      else false)

/-- The symbol list of `_extract_id_from_heading`'s next-character check:
`'@#$%^&*()+=[]{}|\\;:\'",.<>?/`~'` (braces, apostrophe and backtick written
via their code points). -/
def specialChars : List Char :=
  ['@', '#', '$', '%', '^', '&', '*', '(', ')', '+', '=', '[', ']',
   Char.ofNat 123, Char.ofNat 125, '|', '\\', ';', ':', Char.ofNat 39,
   '"', ',', '.', '<', '>', '?', '/', Char.ofNat 96, '~']

/-- `ExtractedID` (id_extraction.py); the `prefix` field is named
`prefixMarker` here. -/
structure ExtractedID where
  fullId : List Char
  prefixMarker : IDPrefix
  suffix : List Char
  headingLevel : Nat
  headingText : List Char
  lineNumber : Nat
  rawLine : List Char
deriving DecidableEq, Repr

/-- The enum-mapping loop of `_extract_id_from_heading`: find the `IDPrefix`
whose value equals the matched prefix, case-insensitively. -/
def prefixEnumOf (pfxStr : List Char) : Option IDPrefix :=
  idPrefixes.find? (fun p => lower p.value = lower pfxStr)

/-- `MarkdownHeadingParser._extract_id_from_heading` (id_extraction.py).
`none` models the `None` return; the `ExtractedID.__post_init__` checks cannot
fire on this code path (non-empty full id and suffix). -/
def extractIdFromHeading (headingText : List Char) (headingLevel : Nat)
    (lineNumber : Nat) (rawLine : List Char) : Option ExtractedID :=
  match idTokenMatch headingText with
  | none => none
  | some (pfxStr, suffix, rest) =>
    let fullId := pfxStr ++ suffix
    let rejectNextChar :=
      match rest with
      | [] => false
      | c :: _ => isAlnumPy c || specialChars.contains c
    if rejectNextChar then none
    else if !validateIdFormat fullId then none
    else
      match prefixEnumOf pfxStr with
      | none => none
      | some pe =>
        some ⟨fullId, pe, suffix, headingLevel, headingText, lineNumber, rawLine⟩

/-- `re.match` of `HEADING_PATTERN = ^(#{1,6})\s+(.+?)$` against one line
(no `'\n'` inside).  Returns (heading level, group 2).  With more than six
`'#'`s every alternative leaves a `'#'` where `\s+` must match, so there is no
match; when everything after the hashes is whitespace, `\s+` backtracks one
character so that the lazy `(.+?)$` can take exactly the final whitespace
character. -/
def headingMatch (line : List Char) : Option (Nat × List Char) :=
  let n := (line.takeWhile (fun c => c = '#')).length
  if 1 ≤ n ∧ n ≤ 6 then
    let afterHash := line.drop n
    let ws := afterHash.takeWhile isSpacePy
    let text := afterHash.drop ws.length
    if ws.length = 0 then none
    else if text ≠ [] then some (n, text)
    else if 2 ≤ ws.length then some (n, ws.drop (ws.length - 1))
    else none
  else none

/-! ### Reference detection (reference_detection.py) -/

/-- `Reference.reference_type`: the source uses the strings
`"inline"` / `"explicit"`. -/
inductive RefType where
  | inline
  | explicit
deriving DecidableEq, Repr

/-- `Reference` (reference_detection.py).  `__post_init__` cannot fire on the
paths below (targets built from a matched marker are never empty). -/
structure Reference where
  targetId : List Char
  refType : RefType
  context : List Char
  lineNumber : Nat
  positionInLine : Nat
deriving DecidableEq, Repr

/-- `re.finditer` of
`ID_PATTERN = \b(R:|C:|D:|I:|M:|UI:|T:|TP:)([A-Za-z0-9][A-Za-z0-9_-]*)\b`
over one line: (match start, group 1 in original case, group 2) triples.
`bOk` records whether a word boundary holds at the current position (start of
string, or previous character not a word character; a marker starts with a
letter, so `\b` there demands exactly this).  `re.finditer` resumes after each
match and advances by at least one character. -/
def scanIdTokensGo (fuel : Nat) (bOk : Bool) (pos : Nat) (t : List Char) :
    List (Nat × List Char × List Char) :=
  match fuel, t with
  | 0, _ => []
  | _, [] => []
  | fuel + 1, c :: rest =>
    if bOk then
      match idTokenMatch (c :: rest) with
      | some (pfxStr, suffix, _) =>
        let len := pfxStr.length + suffix.length
        (pos, pfxStr, suffix) ::
          scanIdTokensGo fuel false (pos + max len 1) ((c :: rest).drop (max len 1))
      | none => scanIdTokensGo fuel (!isWordChar c) (pos + 1) rest
    else scanIdTokensGo fuel (!isWordChar c) (pos + 1) rest

/-- With `fuel = t.length` the fuel never runs out (each step consumes at
least one character), so this is the full scan. -/
def scanIdTokens (bOk : Bool) (pos : Nat) (t : List Char) :
    List (Nat × List Char × List Char) :=
  scanIdTokensGo t.length bOk pos t

/-- `ReferenceDetector._is_valid_id_suffix` (reference_detection.py).  The
source indexes `suffix[0]` under the caller's non-emptiness guard. -/
def refIsValidIdSuffix (suffix pfxStr : List Char) : Bool :=
  match suffix with
  | [] => false
  | c :: _ =>
    if pfxStr = chars "T:" || pfxStr = chars "TP:" then isAlnumPy c
    else isAlphaPy c

/-- `ReferenceDetector._is_valid_id` (reference_detection.py). -/
def refIsValidId (pfxStr suffix : List Char) : Bool :=
  markers.contains pfxStr && refIsValidIdSuffix suffix pfxStr

/-- `ReferenceDetector._find_inline_references` (reference_detection.py). -/
def findInlineReferences (bodyText : List Char) : List Reference :=
  let lines := splitNl bodyText
  (lines.enum.map (fun p =>
    let lineNum := p.1
    let line := p.2
    (scanIdTokens true 0 line).filterMap (fun m =>
      let start := m.1
      let pfxStr := m.2.1
      let suffix := m.2.2
      let normalizedPfx := upper pfxStr
      if refIsValidId normalizedPfx suffix then
        let fullId := normalizedPfx ++ suffix
        let endPos := start + pfxStr.length + suffix.length
        let startPos := start - 20
        let endCtx := min line.length (endPos + 20)
        let context := strip ((line.drop startPos).take (endCtx - startPos))
        some ⟨fullId, RefType.inline, context, lineNum, start⟩
      else none))).flatten

/-- Case-insensitive match of `References?:` at the start of `t`: returns the
number of characters consumed.  The greedy optional `s` is taken when it is
followed by the colon. -/
def matchReferencesColon (t : List Char) : Option Nat :=
  if matchMarkerCI (chars "REFERENCE") t then
    match t.drop 9 with
    | [] => none
    | c :: rest =>
      if upperChar c = 'S' then
        match rest with
        | c2 :: _ => if c2 = ':' then some 11 else none
        | [] => none
      else if c = ':' then some 10 else none
  else none

/-- Index of the last `'\n'` in `l`, if any. -/
def lastNlIdx (l : List Char) : Option Nat :=
  match l.reverse.findIdx? (fun c => c = '\n') with
  | some j => some (l.length - 1 - j)
  | none => none

/-- Match of `REFERENCES_SECTION_PATTERN = ^#{1,6}\s*References?:\s*$` (with
`re.MULTILINE | re.IGNORECASE`) at the start of `t` (the `^` anchor is the
caller's concern): number of characters consumed.  With more than six hashes
every backtracking alternative leaves `\s*` facing a `'#'`, so no match.  `\s`
matches `'\n'`, so the runs may span lines; the final `\s*$` succeeds at the
end of the text, or backtracks so that `$` sits just before the last `'\n'` of
the trailing whitespace run. -/
def refSectionMatchLen (t : List Char) : Option Nat :=
  let nAll := (t.takeWhile (fun c => c = '#')).length
  if 1 ≤ nAll ∧ nAll ≤ 6 then
    let t1 := t.drop nAll
    let ws1 := t1.takeWhile isSpacePy
    let t2 := t1.drop ws1.length
    match matchReferencesColon t2 with
    | none => none
    | some consumed =>
      let t3 := t2.drop consumed
      let ws2 := t3.takeWhile isSpacePy
      if t3.length = ws2.length then
        some (nAll + ws1.length + consumed + t3.length)
      else
        match lastNlIdx ws2 with
        | some i => some (nAll + ws1.length + consumed + i)
        | none => none
  else none

/-- `re.finditer` of `REFERENCES_SECTION_PATTERN` over the whole body:
absolute start positions of the (non-overlapping, leftmost) matches.
`atLineStart` tracks the `re.MULTILINE` `^` anchor. -/
def refSectionScanGo (fuel : Nat) (atLineStart : Bool) (pos : Nat) (t : List Char) :
    List Nat :=
  match fuel, t with
  | 0, _ => []
  | _, [] => []
  | fuel + 1, c :: rest =>
    if atLineStart then
      match refSectionMatchLen (c :: rest) with
      | some len =>
        let step := max len 1
        let nextAtLineStart :=
          match ((c :: rest).take step).getLast? with
          | some ch => ch = '\n'
          | none => atLineStart
        pos :: refSectionScanGo fuel nextAtLineStart (pos + step) ((c :: rest).drop step)
      | none => refSectionScanGo fuel (c = '\n') (pos + 1) rest
    else refSectionScanGo fuel (c = '\n') (pos + 1) rest

/-- With `fuel = t.length` the fuel never runs out (each step consumes at
least one character), so this is the full scan. -/
def refSectionScan (atLineStart : Bool) (pos : Nat) (t : List Char) : List Nat :=
  refSectionScanGo t.length atLineStart pos t

/-- `re.match` of `EXPLICIT_REF_PATTERN = ^\s*[-*]\s+(.+)$` against one line:
group 1.  When everything after the list marker is whitespace, `\s+`
backtracks so that the lazy-free `(.+)$` takes the final whitespace
character. -/
def explicitRefPatternMatch (line : List Char) : Option (List Char) :=
  let ws := line.takeWhile isSpacePy
  match line.drop ws.length with
  | [] => none
  | m :: rest =>
    if m = '-' || m = '*' then
      let ws2 := rest.takeWhile isSpacePy
      let s := rest.drop ws2.length
      if s ≠ [] then
        if 1 ≤ ws2.length then some s else none
      else if 2 ≤ ws2.length then some (rest.drop (ws2.length - 1))
      else none
    else none

/-- The ID matches of one list item's content, as explicit references
(inner loop of `_parse_references_section`). -/
def explicitRefsOfListItem (line : List Char) (lineNum : Nat) : List Reference :=
  match explicitRefPatternMatch line with
  | none => []
  | some grp =>
    let listContent := strip grp
    (scanIdTokens true 0 listContent).filterMap (fun m =>
      let start := m.1
      let pfxStr := m.2.1
      let suffix := m.2.2
      let normalizedPfx := upper pfxStr
      if refIsValidId normalizedPfx suffix then
        let fullId := normalizedPfx ++ suffix
        some ⟨fullId, RefType.explicit, listContent, lineNum,
              start + (line.length - (lstrip line).length)⟩
      else none)

/-- Loop body of `ReferenceDetector._parse_references_section`: scan lines
from `lineNum` on (`fuel` bounds the remaining iterations), stopping at a
heading line or at a blank line followed by a heading line. -/
def parseRefSectionGo (lines : List (List Char)) : Nat → Nat → List Reference
  | _, 0 => []
  | lineNum, fuel + 1 =>
    match lines.get? lineNum with
    | none => []
    | some line =>
      let stripped := strip line
      let stopHeading : Bool :=
        match stripped with
        | '#' :: _ => true
        | _ => false
      let stopBlankThenHeading : Bool :=
        stripped = [] && lineNum + 1 < lines.length &&
          (match lines.get? (lineNum + 1) with
           | some nextLine =>
             match strip nextLine with
             | '#' :: _ => true
             | _ => false
           | none => false)
      if stopHeading || stopBlankThenHeading then []
      else explicitRefsOfListItem line lineNum ++ parseRefSectionGo lines (lineNum + 1) fuel

/-- `ReferenceDetector._parse_references_section` (reference_detection.py). -/
def parseReferencesSection (lines : List (List Char)) (startLine : Nat) :
    List Reference :=
  parseRefSectionGo lines startLine (lines.length - startLine)

/-- `ReferenceDetector._find_explicit_references` (reference_detection.py). -/
def findExplicitReferences (bodyText : List Char) : List Reference :=
  let starts := refSectionScan true 0 bodyText
  let lines := splitNl bodyText
  (starts.map (fun p =>
    let headerLineNum := ((bodyText.take p).filter (fun c => c = '\n')).length
    parseReferencesSection lines (headerLineNum + 1))).flatten

/-- The dedup loop of `detect_references_in_text`: keep the first reference
per target id (`seen` is the already-seen target set). -/
def dedupRefsGo : List Reference → List (List Char) → List Reference
  | [], _ => []
  | r :: rest, seen =>
    if r.targetId ∈ seen then dedupRefsGo rest seen
    else r :: dedupRefsGo rest (setAdd seen r.targetId)

/-- Deduplicate references, first occurrence per target id wins. -/
def dedupRefs (refs : List Reference) : List Reference :=
  dedupRefsGo refs []

/-- `ReferenceDetector.detect_references_in_text` (reference_detection.py):
explicit references are collected first, then inline ones, then the list is
deduplicated, first occurrence per target winning. -/
def detectReferencesInText (bodyText : List Char) : List Reference :=
  dedupRefs (findExplicitReferences bodyText ++ findInlineReferences bodyText)

/-! ### Title extraction (markdown_parser.py) -/

/-- `re.sub(r'^#+\s*', '', t)`: remove a leading run of at least one `'#'`
and the following whitespace; no-op when `t` does not start with `'#'`. -/
def stripHashPrefix (t : List Char) : List Char :=
  match t with
  | '#' :: _ =>
    let hashes := t.takeWhile (fun c => c = '#')
    let t1 := t.drop hashes.length
    t1.drop (t1.takeWhile isSpacePy).length
  | _ => t

/-- `re.match(r'^([A-Za-z]+:\w+)\s*-\s*(.+)$', t)`: (group 1, group 2).
All runs are greedy and no backtracking alternative can succeed where the
greedy parse fails (a shorter letter/word run faces a letter/word character
where `':'` / `'-'` is required), except in `\s*-\s*(.+)$` when nothing
follows the dash-and-whitespace: there `\s+` yields one whitespace character
back to `(.+)`. -/
def titleIdDashMatch (t : List Char) : Option (List Char × List Char) :=
  let letters := t.takeWhile isAlphaPy
  if letters = [] then none
  else
    match t.drop letters.length with
    | ':' :: afterColon =>
      let wrun := afterColon.takeWhile isWordChar
      if wrun = [] then none
      else
        let t2 := afterColon.drop wrun.length
        let ws1 := t2.takeWhile isSpacePy
        match t2.drop ws1.length with
        | '-' :: afterDash =>
          let ws2 := afterDash.takeWhile isSpacePy
          let rest := afterDash.drop ws2.length
          if rest ≠ [] then some (letters ++ ':' :: wrun, rest)
          else if 1 ≤ ws2.length then
            some (letters ++ ':' :: wrun, afterDash.drop (ws2.length - 1))
          else none
        | _ => none
    | _ => none

/-- `MarkdownParser._extract_title_from_heading` (markdown_parser.py). -/
def extractTitleFromHeading (headingText : List Char) : List Char :=
  let title := strip (stripHashPrefix headingText)
  match titleIdDashMatch title with
  | some g => strip g.2
  | none => title

/-! ### Body extraction (body_extraction.py) -/

/-- `HeadingBoundary` (body_extraction.py). -/
structure HeadingBoundary where
  lineNumber : Nat
  bytePosition : Nat
  headingLevel : Nat
  headingText : List Char
  elementId : Option (List Char)
deriving DecidableEq, Repr

/-- `BodyRange` (body_extraction.py); its `__post_init__` bounds checks cannot
fire on the construction below (`end ≥ start` holds by construction). -/
structure BodyRange where
  startLine : Nat
  endLine : Nat
  startByte : Nat
  endByte : Nat
  rawContent : List Char
  strippedContent : List Char
  lineCount : Nat
  charCount : Nat
deriving DecidableEq, Repr

/-- `MarkdownBodyExtractor._extract_id_from_heading_text` (body_extraction.py):
`re.match` of `^(R:|C:|D:|I:|M:|UI:|T:|TP:)([A-Za-z0-9_-]+)` (IGNORECASE),
returning group 0.  Note: unlike the id_extraction.py pattern, the suffix may
start with `'_'`/`'-'` and there is no trailing `\b`. -/
def simpleIdOfHeadingText (headingText : List Char) : Option (List Char) :=
  match findMarker headingText with
  | none => none
  | some mk =>
    let run := (headingText.drop mk.length).takeWhile isSuffixChar
    if run = [] then none
    else some (headingText.take mk.length ++ run)

/-- Loop of `MarkdownBodyExtractor._find_heading_boundaries`
(body_extraction.py), tracking the running line number and byte position. -/
def findHeadingBoundariesGo : List (List Char) → Nat → Nat → List HeadingBoundary
  | [], _, _ => []
  | line :: rest, lineNum, bytePos =>
    (match headingMatch line with
     | some g =>
       let ht := strip g.2
       [⟨lineNum, bytePos, g.1, ht, simpleIdOfHeadingText ht⟩]
     | none => []) ++
    findHeadingBoundariesGo rest (lineNum + 1) (bytePos + utf8Len line + 1)

/-- `MarkdownBodyExtractor._find_heading_boundaries` (body_extraction.py). -/
def findHeadingBoundaries (lines : List (List Char)) : List HeadingBoundary :=
  findHeadingBoundariesGo lines 0 0

/-- `MarkdownBodyExtractor._calculate_byte_position` (body_extraction.py). -/
def calculateBytePosition (text : List Char) (lines : List (List Char))
    (lineNumber : Nat) : Nat :=
  if lineNumber ≥ lines.length then utf8Len text
  else ((lines.take lineNumber).map (fun l => utf8Len l + 1)).sum

/-- `MarkdownBodyExtractor._extract_body_for_heading` (body_extraction.py);
`none` models the `IndexError` of an out-of-range heading index, which no
caller below can trigger. -/
def extractBodyForHeading (text : List Char) (lines : List (List Char))
    (boundaries : List HeadingBoundary) (i : Nat) : Option BodyRange :=
  match boundaries.get? i with
  | none => none
  | some cur =>
    let bodyStart := cur.lineNumber + 1
    let bodyEnd :=
      match boundaries.get? (i + 1) with
      | some nxt => nxt.lineNumber
      | none => lines.length
    let bodyLines :=
      if bodyStart ≥ lines.length then []
      else (lines.drop bodyStart).take (bodyEnd - bodyStart)
    let raw := joinNl bodyLines
    let strippedC := strip raw
    some ⟨bodyStart, bodyEnd, calculateBytePosition text lines bodyStart,
          calculateBytePosition text lines bodyEnd, raw, strippedC,
          bodyLines.length, strippedC.length⟩

/-- `MarkdownBodyExtractor.extract_body_ranges` (body_extraction.py). -/
def extractBodyRanges (text : List Char) : List (HeadingBoundary × BodyRange) :=
  let lines := splitNl text
  let bs := findHeadingBoundaries lines
  (List.range bs.length).filterMap (fun i =>
    match bs.get? i, extractBodyForHeading text lines bs i with
    | some b, some r => some (b, r)
    | _, _ => none)

/-- `MarkdownBodyExtractor.extract_single_body` (body_extraction.py); `none`
models the `BodyExtractionError` raised when no heading sits at the line. -/
def extractSingleBody (text : List Char) (headingLine : Nat) : Option BodyRange :=
  let lines := splitNl text
  let bs := findHeadingBoundaries lines
  match bs.findIdx? (fun b => b.lineNumber = headingLine) with
  | none => none
  | some i => extractBodyForHeading text lines bs i

/-- `MarkdownBodyExtractor.extract_and_update_content` (body_extraction.py).
`new_content.split('\n') if new_content else ['']` equals `splitNl` in both
cases, since `''.split('\n') == ['']`. -/
def extractAndUpdateContent (text : List Char) (headingLine : Nat)
    (newContent : List Char) : Option (List Char) :=
  match extractSingleBody text headingLine with
  | none => none
  | some br =>
    let lines := splitNl text
    let newLines := splitNl newContent
    let before := lines.take br.startLine
    let after := lines.drop br.endLine
    some (joinNl (before ++ newLines ++ after))

/-! ### Document elements and the index (doc_element.py, indexer.py) -/

/-- `Kind` enum (doc_element.py). -/
inductive Kind where
  | requirement
  | component
  | data
  | interface
  | method
  | ui
  | task
  | test
  | other
deriving DecidableEq, Repr

/-- `File` enum (doc_element.py); named `FileKind` here. -/
inductive FileKind where
  | conventions
  | softwareDesign
  | developmentPlan
  | testPlan
deriving DecidableEq, Repr

/-- `File.value`. -/
def FileKind.value : FileKind → List Char
  | .conventions => chars "conventions"
  | .softwareDesign => chars "software-design"
  | .developmentPlan => chars "development-plan"
  | .testPlan => chars "test-plan"

/-- `Status` enum (doc_element.py). -/
inductive Status where
  | pending
  | inProgress
  | completed
deriving DecidableEq, Repr

/-- `DocElement` (doc_element.py). -/
structure DocElement where
  id : List Char
  kind : Kind
  title : List Char
  file : FileKind
  headingLevel : Nat
  anchor : List Char
  bodyMarkdown : List Char
  refs : List (List Char)
  backlinks : List (List Char)
  status : Option Status
deriving DecidableEq, Repr

/-- `DocumentIndex`'s internal dictionaries (indexer.py).  `_last_updated`
(wall-clock time) is not modelled. -/
structure IndexState where
  elements : List (List Char × DocElement)
  fileElements : List (List Char × List (List Char))
  references : List (List Char × List (List Char))
  backlinks : List (List Char × List (List Char))
  titleIndex : List (List Char × List (List Char))
  idIndex : List (List Char × List Char)
  partialIdIndex : List (List Char × List (List Char))
deriving Repr

/-- `DocumentIndex.__init__` / `create_index`. -/
def emptyIndex : IndexState := ⟨[], [], [], [], [], [], []⟩

/-- `DocumentIndex._normalize_for_search` (indexer.py):
`re.sub(r'[^\w\s:]', ' ', text.lower())` then whitespace-collapsing via
`' '.join(s.split())`. -/
def normalizeForSearch (t : List Char) : List Char :=
  joinSpace (splitWs (t.map (fun c =>
    let lc := lowerChar c
    if isWordChar lc || isSpacePy lc || lc = ':' then lc else ' ')))

/-- `DocumentIndex._add_to_search_index` (indexer.py).  `range(2, len+1)` is
`List.range' 2 (len - 1)`. -/
def addToSearchIndex (s : IndexState) (e : DocElement) : IndexState :=
  let idNorm := normalizeForSearch e.id
  let s1 := { s with idIndex := alInsert s.idIndex idNorm e.id }
  let s2 := (List.range' 2 (e.id.length - 1)).foldl (fun st i =>
    { st with partialIdIndex := mapSetAdd st.partialIdIndex (lower (e.id.take i)) e.id }) s1
  let titleWords := splitWs (normalizeForSearch e.title)
  titleWords.foldl (fun st w =>
    if w ≠ [] then { st with titleIndex := mapSetAdd st.titleIndex w e.id } else st) s2

/-- `DocumentIndex._remove_from_search_index` (indexer.py). -/
def removeFromSearchIndex (s : IndexState) (e : DocElement) : IndexState :=
  let idNorm := normalizeForSearch e.id
  let s1 :=
    if alContains s.idIndex idNorm then { s with idIndex := alErase s.idIndex idNorm }
    else s
  let s2 := (List.range' 2 (e.id.length - 1)).foldl (fun st i =>
    { st with partialIdIndex := mapSetDiscardDrop st.partialIdIndex (lower (e.id.take i)) e.id }) s1
  let titleWords := splitWs (normalizeForSearch e.title)
  titleWords.foldl (fun st w =>
    if w ≠ [] ∧ alContains st.titleIndex w then
      { st with titleIndex :=
          match alLookup st.titleIndex w with
          | some ws =>
            let ws' := setDiscard ws e.id
            if ws' = [] then alErase st.titleIndex w else alInsert st.titleIndex w ws'
          | none => st.titleIndex }
    else st) s2

/-- `DocumentIndex._add_element_references` (indexer.py). -/
def addElementReferences (s : IndexState) (e : DocElement) : IndexState :=
  let oldRefs := mget s.references e.id
  let bl1 := oldRefs.foldl (fun bl r => mapSetDiscardKeep bl r e.id) s.backlinks
  let newRefs := setOf e.refs
  let refs1 := alInsert s.references e.id newRefs
  let bl2 := newRefs.foldl (fun bl r => mapSetAdd bl r e.id) bl1
  { s with references := refs1, backlinks := bl2 }

/-- `DocumentIndex._remove_element_references` (indexer.py). -/
def removeElementReferences (s : IndexState) (elementId : List Char) : IndexState :=
  let refs0 := mget s.references elementId
  let bl1 := refs0.foldl (fun bl r => mapSetDiscardDrop bl r elementId) s.backlinks
  let refs1 :=
    if alContains s.references elementId then alErase s.references elementId
    else s.references
  let hasIncoming := alContains bl1 elementId
  let incoming := mget bl1 elementId
  let refs2 :=
    if hasIncoming then
      incoming.foldl (fun rf z => mapSetDiscardKeep rf z elementId) refs1
    else refs1
  let bl2 := if hasIncoming then alErase bl1 elementId else bl1
  { s with references := refs2, backlinks := bl2 }

/-- `DocumentIndex.remove_element` (indexer.py); the returned `Bool` is the
source's return value. -/
def removeElement (s : IndexState) (elementId : List Char) : IndexState × Bool :=
  match alLookup s.elements elementId with
  | none => (s, false)
  | some e =>
    let s1 := { s with elements := alErase s.elements elementId }
    let s2 := { s1 with
      fileElements := mapSetDiscardDrop s1.fileElements e.file.value elementId }
    let s3 := removeElementReferences s2 elementId
    (removeFromSearchIndex s3 e, true)

/-- `DocumentIndex.add_element` (indexer.py). -/
def addElement (s : IndexState) (e : DocElement) : IndexState :=
  let s0 := if alContains s.elements e.id then (removeElement s e.id).1 else s
  let s1 := { s0 with elements := alInsert s0.elements e.id e }
  let s2 := { s1 with fileElements := mapSetAdd s1.fileElements e.file.value e.id }
  let s3 := addElementReferences s2 e
  addToSearchIndex s3 e

/-- `DocumentIndex.get_references` (indexer.py): `list(set)`, set membership
is what the claims use. -/
def getReferences (s : IndexState) (elementId : List Char) : List (List Char) :=
  mget s.references elementId

/-- `DocumentIndex.get_backlinks` (indexer.py). -/
def getBacklinks (s : IndexState) (elementId : List Char) : List (List Char) :=
  mget s.backlinks elementId

/-- `DocumentIndex.has_element` (indexer.py). -/
def hasElement (s : IndexState) (elementId : List Char) : Bool :=
  alContains s.elements elementId

/-- One mutation of the index, for stating reachability. -/
inductive IndexOp where
  | add (e : DocElement)
  | remove (elementId : List Char)
deriving Repr

/-- Apply one operation. -/
def applyOp (s : IndexState) : IndexOp → IndexState
  | .add e => addElement s e
  | .remove i => (removeElement s i).1

/-- Apply a sequence of operations to the empty index. -/
def applyOps (ops : List IndexOp) : IndexState :=
  ops.foldl applyOp emptyIndex

/-- `SearchMatch.match_type` values (the source uses strings). -/
inductive MatchType where
  | idExact
  | idPartialKind
  | titleExact
  | titlePartialKind
deriving DecidableEq, Repr

/-- `SearchMatch` (indexer.py); `match_score` (a float in `[0, 1]`) is
modelled by `ℚ`, on which all the score arithmetic below is exact. -/
structure SearchMatch where
  elementId : List Char
  elementTitle : List Char
  matchType : MatchType
  matchScore : ℚ
  matchedText : List Char
deriving DecidableEq, Repr

/-- Stable-descending insertion by `match_score`: an element is placed before
the first strictly-smaller score, after any tie — the order
`list.sort(key=..., reverse=True)` (a stable sort) produces. -/
def insertDesc (x : SearchMatch) : List SearchMatch → List SearchMatch
  | [] => [x]
  | y :: ys => if y.matchScore < x.matchScore then x :: y :: ys else y :: insertDesc x ys

/-- Stable descending sort by `match_score`. -/
def sortDesc : List SearchMatch → List SearchMatch
  | [] => []
  | x :: xs => insertDesc x (sortDesc xs)

/-- `DocumentIndex.search` (indexer.py) with an explicit `limit`. -/
def searchWithLimit (s : IndexState) (query : List Char) (limit : Nat) :
    List SearchMatch :=
  if strip query = [] then []
  else
    let qn := normalizeForSearch (strip query)
    let exactIdOpt := alLookup s.idIndex qn
    let exactMatches :=
      match exactIdOpt with
      | some eid =>
        match alLookup s.elements eid with
        | some e => [⟨eid, e.title, .idExact, 1, eid⟩]
        | none => []
      | none => []
    let partialMatches := s.partialIdIndex.flatMap (fun kv =>
      let pid := kv.1
      if decide (qn <:+: pid) && !(qn = pid : Bool) then
        kv.2.filterMap (fun eid =>
          if alContains s.elements eid && !(some eid = exactIdOpt : Bool) then
            match alLookup s.elements eid with
            | some e =>
              some ⟨eid, e.title, .idPartialKind,
                    ((qn.length : ℚ) / (pid.length : ℚ)) * (9 / 10), eid⟩
            | none => none
          else none)
      else [])
    let m1 := exactMatches ++ partialMatches
    let queryWords := splitWs qn
    let m2 := queryWords.foldl (fun acc w =>
      match alLookup s.titleIndex w with
      | none => acc
      | some eids => eids.foldl (fun acc2 eid =>
          match alLookup s.elements eid with
          | none => acc2
          | some e =>
            let etn := normalizeForSearch e.title
            let sm :=
              if etn = qn then ((19 : ℚ) / 20, MatchType.titleExact)
              else
                let titleWords := splitWs etn
                let mw := (queryWords.filter (fun qw => qw ∈ titleWords)).length
                (((mw : ℚ) / ((max queryWords.length titleWords.length : Nat) : ℚ)),
                 MatchType.titlePartialKind)
            if acc2.any (fun m => m.elementId = eid) then acc2
            else acc2 ++ [⟨eid, e.title, sm.2, sm.1 * (8 / 10), e.title⟩]) acc) m1
    (sortDesc m2).take limit

/-- `DocumentIndex.search` with the default `limit=10`. -/
def search (s : IndexState) (query : List Char) : List SearchMatch :=
  searchWithLimit s query 10

/-! ### Derived notions used to state the theorems -/

/-- A line on which `HEADING_PATTERN` matches. -/
def isHeadingLine (l : List Char) : Bool := (headingMatch l).isSome

/-- Line numbers (offset by `i`) of the heading lines of `lines`. -/
def headingLineNumsFrom : List (List Char) → Nat → List Nat
  | [], _ => []
  | l :: rest, i =>
    (if isHeadingLine l then [i] else []) ++ headingLineNumsFrom rest (i + 1)

/-- Line numbers of the heading lines of `lines`. -/
def headingIdxs (lines : List (List Char)) : List Nat :=
  headingLineNumsFrom lines 0

/-- The line number of the first heading strictly after line `h`, or the
total number of lines when there is none. -/
def nextHeadingAfter (lines : List (List Char)) (h : Nat) : Nat :=
  match (headingIdxs lines).find? (fun j => h < j) with
  | some j => j
  | none => lines.length

/-- `(heading line, body start line, body end line)` triples determined by the
sorted heading-line list and the total line count: each body runs from the
line after its heading to the next heading (at any level) or the end. -/
def lineTriples : List Nat → Nat → List (Nat × Nat × Nat)
  | [], _ => []
  | h :: rest, n =>
    (h, h + 1, match rest.head? with | some h' => h' | none => n) :: lineTriples rest n

/-- The reference-graph part of the `DocumentIndex` consistency invariant:
the forward and backward adjacency maps are mutual transposes. -/
def RefGraphInv (s : IndexState) : Prop :=
  ∀ x y : List Char, y ∈ mget s.references x ↔ x ∈ mget s.backlinks y

/-- Well-formedness of an index state: the dictionaries used by the reference
graph have pairwise-distinct keys (Python dicts guarantee this). -/
def IndexWf (s : IndexState) : Prop :=
  wfm s.elements ∧ wfm s.references ∧ wfm s.backlinks

/-- `_extract_body_for_heading` as a function of the two adjacent boundary
lookups it reads. -/
def bodyRangeAdj (text : List Char) (lines : List (List Char))
    (ob onext : Option HeadingBoundary) : Option (HeadingBoundary × BodyRange) :=
  match ob with
  | none => none
  | some cur =>
    let bodyStart := cur.lineNumber + 1
    let bodyEnd := match onext with | some nxt => nxt.lineNumber | none => lines.length
    let bodyLines :=
      if bodyStart ≥ lines.length then []
      else (lines.drop bodyStart).take (bodyEnd - bodyStart)
    let raw := joinNl bodyLines
    let strippedC := strip raw
    some (cur, ⟨bodyStart, bodyEnd, calculateBytePosition text lines bodyStart,
          calculateBytePosition text lines bodyEnd, raw, strippedC,
          bodyLines.length, strippedC.length⟩)

/-- The recognition rule for an explicit-references heading line as the spec
states it: one to six `'#'`s, optional whitespace, `References`/`Reference`
case-insensitively with a **mandatory** colon, optional trailing whitespace.
(This spec-side shape is compared with the source-side matcher
`refSectionMatchLen`.) -/
def refHeaderLineSpec (line : List Char) : Prop :=
  ∃ n ws name trail, 1 ≤ n ∧ n ≤ 6 ∧
    line = List.replicate n '#' ++ ws ++ name ++ trail ∧
    (∀ c ∈ ws, isSpacePy c = true) ∧
    (∀ c ∈ trail, isSpacePy c = true) ∧
    (lower name = chars "references:" ∨ lower name = chars "reference:")

/-! ## Theorems -/

theorem splitNl_ne_nil (s : List Char) : splitNl s ≠ [] := by
  induction s with
  | nil => simp [splitNl]
  | cons c rest ih =>
    simp only [splitNl]
    by_cases h : c = '\n' <;> simp [h]
    cases hr : splitNl rest <;> simp

theorem joinNl_splitNl (s : List Char) : joinNl (splitNl s) = s := by
  induction s with
  | nil => rfl
  | cons c rest ih =>
    simp only [splitNl]
    by_cases h : c = '\n'
    · subst h
      simp only [if_pos rfl, joinNl]
      cases hr : splitNl rest with
      | nil => exact absurd hr (splitNl_ne_nil rest)
      | cons h t => rw [hr] at ih; simp [joinNl, ih]
    · simp only [if_neg h]
      cases hr : splitNl rest with
      | nil => exact absurd hr (splitNl_ne_nil rest)
      | cons hd t =>
        rw [hr] at ih
        cases t with
        | nil => simp_all [joinNl]
        | cons t0 ts => simp_all [joinNl]

section

variable {α : Type}

theorem alLookup_insert (m : List (List Char × α)) (k k' : List Char) (v : α) :
    alLookup (alInsert m k v) k' = if k = k' then some v else alLookup m k' := by
  induction m with
  | nil => by_cases h : k = k' <;> simp [alInsert, alLookup, h]
  | cons p rest ih =>
    obtain ⟨k0, v0⟩ := p
    by_cases h0 : k0 = k
    · subst h0
      by_cases h1 : k0 = k' <;> simp [alInsert, alLookup, h1]
    · by_cases h1 : k0 = k'
      · subst h1
        have hk : ¬ k = k0 := fun hh => h0 hh.symm
        simp [alInsert, alLookup, h0, hk]
      · simp [alInsert, alLookup, h0, h1, ih]

theorem alLookup_eq_none_of_not_mem (m : List (List Char × α)) (k : List Char)
    (h : k ∉ m.map Prod.fst) : alLookup m k = none := by
  induction m with
  | nil => rfl
  | cons p rest ih =>
    obtain ⟨k0, v0⟩ := p
    simp only [List.map_cons, List.mem_cons] at h
    push_neg at h
    have : k0 ≠ k := fun hh => h.1 hh.symm
    simp [alLookup, this, ih h.2]

theorem alLookup_erase (m : List (List Char × α)) (k k' : List Char)
    (hnd : (m.map Prod.fst).Nodup) :
    alLookup (alErase m k) k' = if k = k' then none else alLookup m k' := by
  induction m with
  | nil => by_cases h : k = k' <;> simp [alErase, alLookup, h]
  | cons p rest ih =>
    obtain ⟨k0, v0⟩ := p
    simp only [List.map_cons, List.nodup_cons] at hnd
    by_cases h0 : k0 = k
    · subst h0
      by_cases h1 : k0 = k'
      · subst h1
        simp only [alErase, if_pos rfl, if_pos rfl]
        exact alLookup_eq_none_of_not_mem rest k0 hnd.1
      · simp [alErase, alLookup, h1, if_neg (fun h : k0 = k' => h1 h)]
    · by_cases h1 : k0 = k'
      · subst h1
        have : ¬ k = k0 := fun hh => h0 hh.symm
        simp [alErase, alLookup, h0, this]
      · simp [alErase, alLookup, h0, h1, ih hnd.2]

end

theorem mem_setAdd {l : List (List Char)} {v x : List Char} :
    x ∈ setAdd l v ↔ x = v ∨ x ∈ l := by
  unfold setAdd
  by_cases h : v ∈ l
  · simp only [if_pos h]
    constructor
    · exact Or.inr
    · rintro (rfl | hx)
      · exact h
      · exact hx
  · simp [h]
    tauto

theorem mem_setDiscard {l : List (List Char)} {v x : List Char} :
    x ∈ setDiscard l v ↔ x ∈ l ∧ x ≠ v := by
  simp [setDiscard]

theorem mem_setOf_aux (l : List (List Char)) (acc : List (List Char)) (x : List Char) :
    x ∈ l.foldl setAdd acc ↔ x ∈ acc ∨ x ∈ l := by
  induction l generalizing acc with
  | nil => simp
  | cons h t ih => simp [List.foldl_cons, ih, mem_setAdd]; tauto

theorem mem_setOf {l : List (List Char)} {x : List Char} :
    x ∈ setOf l ↔ x ∈ l := by
  simp [setOf, mem_setOf_aux]

section

variable {α : Type}

theorem wfm_nil : wfm ([] : List (List Char × α)) := List.nodup_nil

theorem mem_keys_insert (m : List (List Char × α)) (k : List Char) (v : α)
    (a : List Char) (ha : a ∈ (alInsert m k v).map Prod.fst) :
    a = k ∨ a ∈ m.map Prod.fst := by
  induction m with
  | nil =>
    simp only [alInsert, List.map_cons, List.map_nil, List.mem_singleton] at ha
    exact Or.inl ha
  | cons p rest ih =>
    obtain ⟨k0, v0⟩ := p
    by_cases h0 : k0 = k
    · simp only [alInsert, if_pos h0, List.map_cons, List.mem_cons] at ha
      rcases ha with rfl | ha
      · exact Or.inr (List.mem_cons_self _ _)
      · exact Or.inr (List.mem_cons_of_mem _ ha)
    · simp only [alInsert, if_neg h0, List.map_cons, List.mem_cons] at ha
      rcases ha with rfl | ha
      · exact Or.inr (List.mem_cons_self _ _)
      · rcases ih ha with rfl | ha'
        · exact Or.inl rfl
        · exact Or.inr (List.mem_cons_of_mem _ ha')

theorem wfm_insert {m : List (List Char × α)} (k : List Char) (v : α)
    (h : wfm m) : wfm (alInsert m k v) := by
  induction m with
  | nil => simp [alInsert, wfm]
  | cons p rest ih =>
    obtain ⟨k0, v0⟩ := p
    simp only [wfm, List.map_cons, List.nodup_cons] at h
    by_cases h0 : k0 = k
    · have hstep : alInsert ((k0, v0) :: rest) k v = (k0, v) :: rest := by
        simp only [alInsert, if_pos h0]
      rw [hstep]
      exact List.nodup_cons.mpr ⟨h.1, h.2⟩
    · have hstep : alInsert ((k0, v0) :: rest) k v = (k0, v0) :: alInsert rest k v := by
        simp only [alInsert, if_neg h0]
      rw [hstep]
      simp only [wfm, List.map_cons, List.nodup_cons]
      refine ⟨fun hmem => ?_, ih h.2⟩
      rcases mem_keys_insert rest k v k0 hmem with rfl | hm
      · exact h0 rfl
      · exact h.1 hm

theorem mem_keys_erase (m : List (List Char × α)) (k : List Char)
    (a : List Char) (ha : a ∈ (alErase m k).map Prod.fst) :
    a ∈ m.map Prod.fst := by
  induction m with
  | nil => simpa [alErase] using ha
  | cons p rest ih =>
    obtain ⟨k0, v0⟩ := p
    by_cases h0 : k0 = k
    · simp only [alErase, if_pos h0] at ha
      exact List.mem_cons_of_mem _ ha
    · simp only [alErase, if_neg h0, List.map_cons, List.mem_cons] at ha
      rcases ha with rfl | ha
      · exact List.mem_cons_self _ _
      · exact List.mem_cons_of_mem _ (ih ha)

theorem wfm_erase {m : List (List Char × α)} (k : List Char)
    (h : wfm m) : wfm (alErase m k) := by
  induction m with
  | nil => simpa [alErase] using h
  | cons p rest ih =>
    obtain ⟨k0, v0⟩ := p
    simp only [wfm, List.map_cons, List.nodup_cons] at h
    by_cases h0 : k0 = k
    · simpa [wfm, alErase, h0] using h.2
    · simp only [wfm, alErase, if_neg h0, List.map_cons, List.nodup_cons]
      exact ⟨fun hm => h.1 (mem_keys_erase rest k k0 hm), ih h.2⟩

theorem alLookup_append (m m2 : List (List Char × α)) (k : List Char) :
    alLookup (m ++ m2) k =
      match alLookup m k with
      | some v => some v
      | none => alLookup m2 k := by
  induction m with
  | nil => simp [alLookup]
  | cons p rest ih =>
    obtain ⟨k0, v0⟩ := p
    by_cases h0 : k0 = k <;> simp [alLookup, h0, ih]

theorem wfm_append_single {m : List (List Char × α)} {k : List Char} (v : α)
    (h : wfm m) (hk : alLookup m k = none) : wfm (m ++ [(k, v)]) := by
  induction m with
  | nil => simp [wfm]
  | cons p rest ih =>
    obtain ⟨k0, v0⟩ := p
    simp only [wfm, List.map_cons, List.nodup_cons] at h
    simp only [alLookup] at hk
    by_cases h0 : k0 = k
    · simp [h0] at hk
    · simp only [List.cons_append, wfm, List.map_cons, List.nodup_cons]
      refine ⟨fun hm => ?_, ih h.2 (by simpa [h0] using hk)⟩
      rw [List.map_append] at hm
      rcases List.mem_append.mp hm with hm' | hm'
      · exact h.1 hm'
      · exact h0 (List.mem_singleton.mp hm')

end

theorem mget_mapSetAdd (m : List (List Char × List (List Char))) (k v k' : List Char) :
    mget (mapSetAdd m k v) k' =
      if k = k' then setAdd (mget m k) v else mget m k' := by
  unfold mapSetAdd mget
  cases h : alLookup m k with
  | some s => simp [alLookup_insert, h]; by_cases hk : k = k' <;> simp [hk]
  | none =>
    rw [alLookup_append]
    by_cases hk : k = k'
    · subst hk; simp [h, alLookup]
    · cases h2 : alLookup m k' <;> simp [h2, alLookup, hk, h]

theorem mget_mapSetDiscardKeep (m : List (List Char × List (List Char)))
    (k v k' : List Char) :
    mget (mapSetDiscardKeep m k v) k' =
      if k = k' then setDiscard (mget m k) v else mget m k' := by
  unfold mapSetDiscardKeep mget
  cases h : alLookup m k with
  | some s => simp [alLookup_insert, h]; by_cases hk : k = k' <;> simp [hk]
  | none =>
    rw [alLookup_append]
    by_cases hk : k = k'
    · subst hk; simp [h, alLookup, setDiscard]
    · cases h2 : alLookup m k' <;> simp [h2, alLookup, hk, h]

theorem mget_mapSetDiscardDrop (m : List (List Char × List (List Char)))
    (k v k' : List Char) (hwf : wfm m) :
    mget (mapSetDiscardDrop m k v) k' =
      if k = k' then setDiscard (mget m k) v else mget m k' := by
  unfold mapSetDiscardDrop mget
  cases h : alLookup m k with
  | some s =>
    simp only [h]
    by_cases hnil : setDiscard s v = []
    · rw [if_pos hnil, alLookup_erase _ _ _ hwf]
      by_cases hk : k = k' <;> simp [hk, hnil, h]
    · rw [if_neg hnil, alLookup_insert]
      by_cases hk : k = k' <;> simp [hk, h]
  | none =>
    simp only [h]
    by_cases hk : k = k'
    · subst hk; simp [h, setDiscard]
    · simp [hk]

theorem wfm_mapSetAdd {m : List (List Char × List (List Char))} (k v : List Char)
    (h : wfm m) : wfm (mapSetAdd m k v) := by
  unfold mapSetAdd
  cases hl : alLookup m k with
  | some s => exact wfm_insert _ _ h
  | none => exact wfm_append_single _ h hl

theorem wfm_mapSetDiscardKeep {m : List (List Char × List (List Char))}
    (k v : List Char) (h : wfm m) : wfm (mapSetDiscardKeep m k v) := by
  unfold mapSetDiscardKeep
  cases hl : alLookup m k with
  | some s => exact wfm_insert _ _ h
  | none => exact wfm_append_single _ h hl

theorem wfm_mapSetDiscardDrop {m : List (List Char × List (List Char))}
    (k v : List Char) (h : wfm m) : wfm (mapSetDiscardDrop m k v) := by
  unfold mapSetDiscardDrop
  cases hl : alLookup m k with
  | some s =>
    simp only
    by_cases hnil : setDiscard s v = []
    · rw [if_pos hnil]; exact wfm_erase _ h
    · rw [if_neg hnil]; exact wfm_insert _ _ h
  | none => exact h


theorem isAlphaPy_eq_false_of_isDigitPy {c : Char} (h : isDigitPy c = true) :
    isAlphaPy c = false := by
  simp only [isDigitPy, Bool.and_eq_true, decide_eq_true_eq] at h
  simp only [isAlphaPy, Bool.or_eq_false_iff, Bool.and_eq_false_iff,
    decide_eq_false_iff_not, not_le]
  omega

/-- **C4**: a candidate whose suffix starts with a digit is rejected by both
the heading-extraction suffix validator and the reference-detection suffix
validator whenever its marker is not `T:`/`TP:`; concretely, `R:123Invalid`
yields no heading ID and no reference, while `T:0042` and `TP:T0042` are
accepted by both paths. -/
theorem claim_C4 :
    (∀ (pfxStr rest : List Char) (c : Char),
      isDigitPy c = true → pfxStr ≠ chars "T:" → pfxStr ≠ chars "TP:" →
      validatorIsValidSuffix (c :: rest) pfxStr = false ∧
      refIsValidIdSuffix (c :: rest) pfxStr = false) ∧
    extractIdFromHeading (chars "R:123Invalid") 1 0 (chars "# R:123Invalid") = none ∧
    detectReferencesInText (chars "R:123Invalid") = [] ∧
    (extractIdFromHeading (chars "T:0042") 1 0 (chars "# T:0042")).map
      ExtractedID.fullId = some (chars "T:0042") ∧
    (extractIdFromHeading (chars "TP:T0042") 1 0 (chars "# TP:T0042")).map
      ExtractedID.fullId = some (chars "TP:T0042") ∧
    (detectReferencesInText (chars "T:0042")).map Reference.targetId
      = [chars "T:0042"] ∧
    (detectReferencesInText (chars "TP:T0042")).map Reference.targetId
      = [chars "TP:T0042"] := by
  refine ⟨?_, by decide, by decide, by decide, by decide, by decide, by decide⟩
  intro pfxStr rest c hd h1 h2
  have ha := isAlphaPy_eq_false_of_isDigitPy hd
  constructor
  · simp only [validatorIsValidSuffix]
    rw [if_neg (by simp [h1, h2])]
    simp [ha]
  · simp only [refIsValidIdSuffix]
    rw [if_neg (by simp [h1, h2])]
    exact ha

/-- **C4** witness: the general rejection applied at suffix `123Invalid`,
marker `R:`. -/
theorem claim_C4_witness :
    validatorIsValidSuffix ('1' :: chars "23Invalid") (chars "R:") = false ∧
    refIsValidIdSuffix ('1' :: chars "23Invalid") (chars "R:") = false :=
  claim_C4.1 (chars "R:") (chars "23Invalid") '1' (by decide) (by decide) (by decide)

theorem matchMarkerCI_lower :
    ∀ (mk t : List Char), matchMarkerCI mk t = true →
      lower (t.take mk.length) = lower mk := by
  intro mk
  induction mk with
  | nil => intro t _; simp [lower]
  | cons m ms ih =>
    intro t h
    cases t with
    | nil => simp [matchMarkerCI] at h
    | cons c cs =>
      simp only [matchMarkerCI, Bool.and_eq_true, decide_eq_true_eq] at h
      simp only [List.length_cons, List.take_succ_cons, lower, List.map_cons]
      have := ih cs h.2
      simp only [lower] at this
      rw [this, h.1]

theorem findMarker_mem_and_match {t mk : List Char} (h : findMarker t = some mk) :
    mk ∈ markers ∧ matchMarkerCI mk t = true := by
  unfold findMarker at h
  exact ⟨List.mem_of_find?_eq_some h, by simpa using List.find?_some h⟩

theorem prefixEnumOf_of_findMarker {t mk : List Char} (h : findMarker t = some mk) :
    ∃ pe, prefixEnumOf (t.take mk.length) = some pe := by
  obtain ⟨hmem, hma⟩ := findMarker_mem_and_match h
  obtain ⟨p0, hp0mem, hp0⟩ := List.mem_map.mp hmem
  have hcond : lower p0.value = lower (t.take mk.length) := by
    rw [hp0, matchMarkerCI_lower mk t hma]
  have hex : ∃ p, p ∈ idPrefixes ∧
      (fun p : IDPrefix => (lower p.value = lower (t.take mk.length) : Bool)) p = true :=
    ⟨p0, hp0mem, by simp [hcond]⟩
  have hsome : (idPrefixes.find?
      (fun p : IDPrefix => (lower p.value = lower (t.take mk.length) : Bool))).isSome :=
    List.find?_isSome.mpr hex
  unfold prefixEnumOf
  exact Option.isSome_iff_exists.mp hsome

theorem idTokenMatch_inv {ht pfxStr suffix rest : List Char}
    (h : idTokenMatch ht = some (pfxStr, suffix, rest)) :
    ∃ mk, findMarker ht = some mk ∧ pfxStr = ht.take mk.length := by
  unfold idTokenMatch at h
  cases hf : findMarker ht with
  | none => rw [hf] at h; simp at h
  | some mk =>
    rw [hf] at h
    dsimp only at h
    refine ⟨mk, rfl, ?_⟩
    cases hr : (ht.drop mk.length).takeWhile isSuffixChar with
    | nil => rw [hr] at h; simp at h
    | cons c cs =>
      rw [hr] at h
      dsimp only at h
      by_cases hc : isAlnumPy c = true
      · rw [if_pos hc] at h
        by_cases hs : stripTrailingHyphens (c :: cs) = []
        · rw [if_pos hs] at h; simp at h
        · rw [if_neg hs] at h
          simp only [Option.some.injEq, Prod.mk.injEq] at h
          exact h.1.symm
      · rw [if_neg hc] at h; simp at h

/-- **C5** counterexample: the claim demands rejection whenever the character
after the ID token is anything but whitespace, `'-'`, or end-of-string, but
for `C:Foo! stuff` (next character `'!'`, neither whitespace nor `'-'`) the
extractor still accepts `C:Foo`. -/
theorem claim_C5_counterexample :
    (extractIdFromHeading (chars "C:Foo! stuff") 1 0 (chars "# C:Foo! stuff")).map
      ExtractedID.fullId = some (chars "C:Foo") ∧
    isSpacePy '!' = false ∧ '!' ≠ '-' := by decide

/-- **C5** (amended): for a heading whose start matches the ID token regex and
whose token passes `validate_id_format`, the extractor rejects the match
precisely when the character immediately after the token is alphanumeric or
one of the symbols `@#$%^&*()+=[]{}|\;:'",.<>?/`‍~` — not for every character
other than whitespace/`'-'`/end (e.g. `'!'` is accepted). -/
theorem claim_C5 (ht : List Char) (lvl ln : Nat) (raw : List Char)
    (pfxStr suffix rest : List Char)
    (hm : idTokenMatch ht = some (pfxStr, suffix, rest))
    (hv : validateIdFormat (pfxStr ++ suffix) = true) :
    extractIdFromHeading ht lvl ln raw = none ↔
      ∃ c rest2, rest = c :: rest2 ∧ (isAlnumPy c || specialChars.contains c) = true := by
  obtain ⟨mk, hfm, hpfx⟩ := idTokenMatch_inv hm
  obtain ⟨pe, hpe⟩ := prefixEnumOf_of_findMarker hfm
  rw [← hpfx] at hpe
  unfold extractIdFromHeading
  rw [hm]
  dsimp only
  cases rest with
  | nil =>
    rw [if_neg (by simp), hv]
    rw [if_neg (by simp)]
    rw [hpe]
    simp
  | cons c rest2 =>
    by_cases hc : (isAlnumPy c || specialChars.contains c) = true
    · rw [if_pos hc]
      exact ⟨fun _ => ⟨c, rest2, rfl, hc⟩, fun _ => rfl⟩
    · rw [if_neg hc, hv]
      rw [if_neg (by simp)]
      rw [hpe]
      constructor
      · intro h; simp at h
      · rintro ⟨c', rest2', heq, hcond⟩
        injection heq with h1 h2
        subst h1
        exact absurd hcond hc

/-- **C5** witness: the characterization applied at `C:Foo! stuff`, where the
right-hand side is false (`'!'` is neither alphanumeric nor in the symbol
list), so the ID is accepted. -/
theorem claim_C5_witness :
    extractIdFromHeading (chars "C:Foo! stuff") 1 0 (chars "# C:Foo! stuff") = none ↔
      ∃ c rest2, chars "! stuff" = c :: rest2 ∧
        (isAlnumPy c || specialChars.contains c) = true :=
  claim_C5 (chars "C:Foo! stuff") 1 0 (chars "# C:Foo! stuff")
    (chars "C:") (chars "Foo") (chars "! stuff") (by decide) (by decide)

theorem take_length_takeWhile (p : Char → Bool) (l : List Char) :
    l.take (l.takeWhile p).length = l.takeWhile p := by
  have h := List.takeWhile_append_dropWhile (p := p) (l := l)
  calc l.take (l.takeWhile p).length
      = (l.takeWhile p ++ l.dropWhile p).take (l.takeWhile p).length := by rw [h]
    _ = l.takeWhile p := List.take_left _ _

theorem append_drop_length_takeWhile (p : Char → Bool) (l : List Char) :
    l.takeWhile p ++ l.drop (l.takeWhile p).length = l := by
  conv_rhs => rw [← List.take_append_drop (l.takeWhile p).length l]
  rw [take_length_takeWhile]

theorem titleIdDashMatch_sound {t g1 g2 : List Char}
    (h : titleIdDashMatch t = some (g1, g2)) :
    (∃ letters wrun, g1 = letters ++ ':' :: wrun ∧ letters ≠ [] ∧
      (∀ c ∈ letters, isAlphaPy c = true) ∧ wrun ≠ [] ∧
      (∀ c ∈ wrun, isWordChar c = true)) ∧ g1 <+: t := by
  have hmain : ∃ afterColon,
      t.drop (t.takeWhile isAlphaPy).length = ':' :: afterColon ∧
      t.takeWhile isAlphaPy ≠ [] ∧ afterColon.takeWhile isWordChar ≠ [] ∧
      g1 = t.takeWhile isAlphaPy ++ ':' :: afterColon.takeWhile isWordChar := by
    simp only [titleIdDashMatch] at h
    split at h
    · simp at h
    · next hl =>
      split at h
      · next afterColon heq1 =>
        split at h
        · simp at h
        · next hw =>
          split at h
          · next afterDash heq2 =>
            split at h
            · simp only [Option.some.injEq, Prod.mk.injEq] at h
              exact ⟨afterColon, heq1, hl, hw, h.1.symm⟩
            · split at h
              · simp only [Option.some.injEq, Prod.mk.injEq] at h
                exact ⟨afterColon, heq1, hl, hw, h.1.symm⟩
              · simp at h
          · simp at h
      · simp at h
  obtain ⟨afterColon, heq1, hl, hw, hg1⟩ := hmain
  have hsplit1 := (append_drop_length_takeWhile isAlphaPy t).symm
  rw [heq1] at hsplit1
  have hsplit2 := (append_drop_length_takeWhile isWordChar afterColon).symm
  refine ⟨⟨t.takeWhile isAlphaPy, afterColon.takeWhile isWordChar, hg1, hl,
    fun c hc => List.mem_takeWhile_imp hc, hw,
    fun c hc => List.mem_takeWhile_imp hc⟩, ?_⟩
  refine ⟨afterColon.drop (afterColon.takeWhile isWordChar).length, ?_⟩
  rw [hg1]
  calc (t.takeWhile isAlphaPy ++ ':' :: afterColon.takeWhile isWordChar) ++
        afterColon.drop (afterColon.takeWhile isWordChar).length
      = t.takeWhile isAlphaPy ++ ':' :: (afterColon.takeWhile isWordChar ++
          afterColon.drop (afterColon.takeWhile isWordChar).length) := by
        simp [List.append_assoc]
    _ = t.takeWhile isAlphaPy ++ ':' :: afterColon := by rw [← hsplit2]
    _ = t := hsplit1.symm

/-- **C9** counterexample: `Foo:Bar - Title` starts with no valid typed ID,
yet the assembler strips the pattern and the title is not the heading text. -/
theorem claim_C9_counterexample :
    extractIdFromHeading (chars "Foo:Bar - Title") 1 0 (chars "# Foo:Bar - Title") = none ∧
    extractTitleFromHeading (chars "Foo:Bar - Title") = chars "Title" ∧
    chars "Title" ≠ chars "Foo:Bar - Title" := by decide

/-- **C9** (amended): the assembler strips a leading `SOMETHING - ` prefix
exactly when the (hash- and whitespace-stripped) heading matches the purely
syntactic pattern `letters ':' wordchars  whitespace* '-' whitespace*`,
regardless of whether the prefix is a valid typed ID; a heading that does not
match keeps its whole (stripped) text, and valid-ID headings such as
`C:Foo - The Foo` are stripped as claimed. -/
theorem claim_C9 :
    (∀ ht : List Char,
      extractTitleFromHeading ht = strip (stripHashPrefix ht) ∨
      ∃ g1 g2, titleIdDashMatch (strip (stripHashPrefix ht)) = some (g1, g2) ∧
        extractTitleFromHeading ht = strip g2 ∧
        g1 <+: strip (stripHashPrefix ht) ∧
        ∃ letters wrun, g1 = letters ++ ':' :: wrun ∧ letters ≠ [] ∧
          (∀ c ∈ letters, isAlphaPy c = true) ∧ wrun ≠ [] ∧
          (∀ c ∈ wrun, isWordChar c = true)) ∧
    extractTitleFromHeading (chars "Foo:Bar - Title") = chars "Title" ∧
    extractIdFromHeading (chars "Foo:Bar - Title") 1 0 (chars "# Foo:Bar - Title") = none ∧
    extractTitleFromHeading (chars "C:Foo - The Foo") = chars "The Foo" ∧
    (extractIdFromHeading (chars "C:Foo - The Foo") 1 0
        (chars "# C:Foo - The Foo")).map ExtractedID.fullId = some (chars "C:Foo") := by
  refine ⟨?_, by decide, by decide, by decide, by decide⟩
  intro ht
  cases hm : titleIdDashMatch (strip (stripHashPrefix ht)) with
  | none =>
    left
    simp only [extractTitleFromHeading, hm]
  | some g =>
    right
    obtain ⟨⟨letters, wrun, hshape, hl, hla, hw, hwa⟩, hpre⟩ :=
      @titleIdDashMatch_sound (strip (stripHashPrefix ht)) g.1 g.2 hm
    exact ⟨g.1, g.2, rfl, by simp only [extractTitleFromHeading, hm], hpre,
      letters, wrun, hshape, hl, hla, hw, hwa⟩

/-- **C6** counterexample: the claim makes the trailing colon optional, but
`REFERENCES_SECTION_PATTERN` requires it: `## References` (no colon) followed
by a list item yields no explicit reference — the ID inside the list item is
found only as an inline reference. -/
theorem claim_C6_counterexample :
    findExplicitReferences (chars "## References\n- C:Foo - desc\n") = [] ∧
    (detectReferencesInText (chars "## References\n- C:Foo - desc\n")).map
      (fun r => (r.targetId, r.refType)) = [(chars "C:Foo", RefType.inline)] := by
  decide

theorem dedupRefsGo_filter_of_mem (l : List Reference) (seen : List (List Char))
    (X : List Char) (hX : X ∈ seen) :
    (dedupRefsGo l seen).filter (fun r => r.targetId = X) = [] := by
  induction l generalizing seen with
  | nil => rfl
  | cons r rest ih =>
    simp only [dedupRefsGo]
    by_cases hr : r.targetId ∈ seen
    · rw [if_pos hr]
      exact ih seen hX
    · rw [if_neg hr]
      have hne : ¬ (r.targetId = X) := fun he => hr (he ▸ hX)
      simp only [List.filter_cons, decide_eq_true_eq]
      rw [if_neg (by simpa using hne)]
      exact ih _ (mem_setAdd.mpr (Or.inr hX))

theorem dedupRefsGo_filter (l : List Reference) (seen : List (List Char))
    (X : List Char) (hX : X ∉ seen) :
    (dedupRefsGo l seen).filter (fun r => r.targetId = X)
      = (l.find? (fun r => r.targetId = X)).toList := by
  induction l generalizing seen with
  | nil => rfl
  | cons r rest ih =>
    simp only [dedupRefsGo]
    by_cases hr : r.targetId ∈ seen
    · rw [if_pos hr]
      have hne : ¬ (r.targetId = X) := fun he => hX (he ▸ hr)
      rw [List.find?_cons_of_neg _ (by simpa using hne)]
      exact ih seen hX
    · rw [if_neg hr]
      by_cases hp : r.targetId = X
      · rw [List.find?_cons_of_pos _ (by simpa using hp)]
        simp only [List.filter_cons, decide_eq_true_eq, if_pos hp]
        rw [dedupRefsGo_filter_of_mem rest _ X
          (mem_setAdd.mpr (Or.inl hp.symm))]
        rfl
      · rw [List.find?_cons_of_neg _ (by simpa using hp)]
        simp only [List.filter_cons, decide_eq_true_eq, if_neg hp]
        exact ih _ (fun hmem => (mem_setAdd.mp hmem).elim (fun h => hp h.symm) hX)

theorem find?_append_left {l1 l2 : List Reference} {p : Reference → Bool}
    (h : ∃ r ∈ l1, p r = true) : (l1 ++ l2).find? p = l1.find? p := by
  induction l1 with
  | nil => obtain ⟨r, hr, -⟩ := h; simp at hr
  | cons r rest ih =>
    by_cases hp : p r = true
    · simp [List.find?_cons_of_pos _ hp]
    · rw [List.cons_append, List.find?_cons_of_neg _ (by simpa using hp),
        List.find?_cons_of_neg _ (by simpa using hp)]
      apply ih
      obtain ⟨r0, hr0, hpr0⟩ := h
      rcases List.mem_cons.mp hr0 with rfl | hr0
      · exact absurd hpr0 hp
      · exact ⟨r0, hr0, hpr0⟩

theorem explicitRefsOfListItem_type {line : List Char} {n : Nat} {r : Reference}
    (h : r ∈ explicitRefsOfListItem line n) : r.refType = RefType.explicit := by
  unfold explicitRefsOfListItem at h
  cases hm : explicitRefPatternMatch line with
  | none => rw [hm] at h; simp at h
  | some grp =>
    rw [hm] at h
    obtain ⟨m, -, hmk⟩ := List.mem_filterMap.mp h
    by_cases hv : refIsValidId (upper m.2.1) m.2.2 = true
    · rw [if_pos hv] at hmk
      cases hmk
      rfl
    · rw [if_neg hv] at hmk
      cases hmk

theorem parseRefSectionGo_type {lines : List (List Char)} :
    ∀ {n fuel : Nat} {r : Reference}, r ∈ parseRefSectionGo lines n fuel →
      r.refType = RefType.explicit := by
  intro n fuel
  induction fuel generalizing n with
  | zero => intro r h; simp [parseRefSectionGo] at h
  | succ fuel ih =>
    intro r h
    unfold parseRefSectionGo at h
    rcases hg : lines.get? n with - | line
    · rw [hg] at h; simp at h
    · rw [hg] at h
      dsimp only at h
      split at h
      · simp at h
      · rcases List.mem_append.mp h with h1 | h2
        · exact explicitRefsOfListItem_type h1
        · exact ih h2

theorem findExplicitReferences_type {body : List Char} {r : Reference}
    (h : r ∈ findExplicitReferences body) : r.refType = RefType.explicit := by
  unfold findExplicitReferences at h
  obtain ⟨l, hl, hr⟩ := List.mem_flatten.mp h
  obtain ⟨p, -, hp⟩ := List.mem_map.mp hl
  rw [← hp] at hr
  exact parseRefSectionGo_type hr

/-- **C2**: when a target ID occurs both in an explicit References block and
inline, `detect_references_in_text` keeps it exactly once, tagged explicit:
explicit references are collected before inline ones and deduplication keeps
the first occurrence per target ID. -/
theorem claim_C2 (body X : List Char)
    (hexp : ∃ r ∈ findExplicitReferences body, r.targetId = X)
    (hinl : ∃ r ∈ findInlineReferences body, r.targetId = X) :
    detectReferencesInText body
      = dedupRefs (findExplicitReferences body ++ findInlineReferences body) ∧
    ((detectReferencesInText body).filter (fun r => r.targetId = X)).length = 1 ∧
    ∀ r ∈ detectReferencesInText body, r.targetId = X →
      r.refType = RefType.explicit := by
  have hfilter : (detectReferencesInText body).filter (fun r => r.targetId = X)
      = ((findExplicitReferences body ++ findInlineReferences body).find?
          (fun r => r.targetId = X)).toList := by
    unfold detectReferencesInText dedupRefs
    exact dedupRefsGo_filter _ [] X (by simp)
  have hexp' : ∃ r ∈ findExplicitReferences body,
      (fun r : Reference => (r.targetId = X : Bool)) r = true := by
    obtain ⟨r, hr, he⟩ := hexp
    exact ⟨r, hr, by simp [he]⟩
  have hfindE := @find?_append_left _ (findInlineReferences body) _ hexp'
  obtain ⟨r0, hr0⟩ := Option.isSome_iff_exists.mp (List.find?_isSome.mpr hexp')
  refine ⟨rfl, ?_, ?_⟩
  · rw [hfilter, hfindE, hr0]
    rfl
  · intro r hr hX
    have hrf : r ∈ (detectReferencesInText body).filter
        (fun r => r.targetId = X) :=
      List.mem_filter.mpr ⟨hr, by simp [hX]⟩
    rw [hfilter, hfindE, hr0] at hrf
    have : r = r0 := by simpa using hrf
    subst this
    exact findExplicitReferences_type (List.mem_of_find?_eq_some hr0)

/-- **C2** witness: `C:Foo` appears in an explicit block and inline. -/
theorem claim_C2_witness :
    (detectReferencesInText (chars "## References:\n- C:Foo x\n\nUses C:Foo.")
      = dedupRefs (findExplicitReferences (chars "## References:\n- C:Foo x\n\nUses C:Foo.")
          ++ findInlineReferences (chars "## References:\n- C:Foo x\n\nUses C:Foo."))) ∧
    ((detectReferencesInText (chars "## References:\n- C:Foo x\n\nUses C:Foo.")).filter
      (fun r => r.targetId = chars "C:Foo")).length = 1 ∧
    ∀ r ∈ detectReferencesInText (chars "## References:\n- C:Foo x\n\nUses C:Foo."),
      r.targetId = chars "C:Foo" → r.refType = RefType.explicit :=
  claim_C2 (chars "## References:\n- C:Foo x\n\nUses C:Foo.") (chars "C:Foo")
    (by decide) (by decide)

theorem findHeadingBoundariesGo_map_lineNumber :
    ∀ (lines : List (List Char)) (i b : Nat),
      (findHeadingBoundariesGo lines i b).map HeadingBoundary.lineNumber
        = headingLineNumsFrom lines i := by
  intro lines
  induction lines with
  | nil => intro i b; rfl
  | cons l rest ih =>
    intro i b
    simp only [findHeadingBoundariesGo, headingLineNumsFrom, List.map_append]
    by_cases hh : isHeadingLine l
    · obtain ⟨g, hg⟩ := Option.isSome_iff_exists.mp (by simpa [isHeadingLine] using hh)
      rw [hg]
      simp [hh, ih]
    · have hg : headingMatch l = none := by
        simpa [isHeadingLine, Option.not_isSome_iff_eq_none] using hh
      rw [hg]
      simp [hh, ih]

theorem headingLineNumsFrom_bounds :
    ∀ (lines : List (List Char)) (i : Nat) (x : Nat),
      x ∈ headingLineNumsFrom lines i → i ≤ x ∧ x < i + lines.length := by
  intro lines
  induction lines with
  | nil => intro i x hx; simp [headingLineNumsFrom] at hx
  | cons l rest ih =>
    intro i x hx
    simp only [headingLineNumsFrom] at hx
    rcases List.mem_append.mp hx with h1 | h2
    · have : x = i := by
        by_cases hh : isHeadingLine l <;> simp [hh] at h1
        exact h1
      subst this
      simp
    · have := ih (i + 1) x h2
      simp only [List.length_cons]
      omega

theorem headingLineNumsFrom_sorted :
    ∀ (lines : List (List Char)) (i : Nat),
      List.Pairwise (· < ·) (headingLineNumsFrom lines i) := by
  intro lines
  induction lines with
  | nil => intro i; simp [headingLineNumsFrom]
  | cons l rest ih =>
    intro i
    simp only [headingLineNumsFrom]
    by_cases hh : isHeadingLine l
    · simp only [hh, if_pos]
      rw [List.singleton_append]
      refine List.pairwise_cons.mpr ⟨?_, ih (i + 1)⟩
      intro x hx
      exact lt_of_lt_of_le (by omega) (headingLineNumsFrom_bounds rest (i + 1) x hx).1
    · simp only [hh]
      simpa using ih (i + 1)

theorem headingLineNumsFrom_mem :
    ∀ (lines : List (List Char)) (i j : Nat),
      j ∈ headingLineNumsFrom lines i ↔
        ∃ l, i ≤ j ∧ lines.get? (j - i) = some l ∧ isHeadingLine l = true := by
  intro lines
  induction lines with
  | nil => intro i j; simp [headingLineNumsFrom]
  | cons l rest ih =>
    intro i j
    simp only [headingLineNumsFrom]
    rw [List.mem_append]
    constructor
    · rintro (h1 | h2)
      · have hij : j = i ∧ isHeadingLine l = true := by
          by_cases hh : isHeadingLine l <;> simp [hh] at h1
          exact ⟨h1, hh⟩
        refine ⟨l, le_of_eq hij.1.symm, ?_, hij.2⟩
        rw [hij.1]
        simp
      · obtain ⟨l', hle, hget, hhl⟩ := (ih (i + 1) j).mp h2
        refine ⟨l', by omega, ?_, hhl⟩
        have : j - i = (j - (i + 1)) + 1 := by omega
        rw [this]
        simpa using hget
    · rintro ⟨l', hle, hget, hhl⟩
      by_cases hji : j = i
      · subst hji
        left
        simp only [Nat.sub_self] at hget
        simp only [List.get?_cons_zero, Option.some.injEq] at hget
        subst hget
        simp [hhl]
      · right
        apply (ih (i + 1) j).mpr
        refine ⟨l', by omega, ?_, hhl⟩
        have : j - i = (j - (i + 1)) + 1 := by omega
        rw [this] at hget
        simpa using hget

theorem range_filterMap_adjacent {α β : Type} (G : Option α → Option α → Option β) :
    ∀ (as : List α),
      (List.range as.length).filterMap (fun i => G (as.get? i) (as.get? (i + 1)))
        = match as with
          | [] => []
          | a :: rest =>
            (G (some a) rest.head?).toList ++
              (List.range rest.length).filterMap
                (fun i => G (rest.get? i) (rest.get? (i + 1))) := by
  intro as
  cases as with
  | nil => rfl
  | cons a rest =>
    rw [List.length_cons, List.range_succ_eq_map, List.filterMap_cons, List.filterMap_map]
    have hfun : ((fun i => G ((a :: rest).get? i) ((a :: rest).get? (i + 1))) ∘ Nat.succ)
        = (fun i => G (rest.get? i) (rest.get? (i + 1))) := funext (fun i => rfl)
    rw [hfun]
    have h0 : (a :: rest).get? 0 = some a := rfl
    have h1 : (a :: rest).get? 1 = rest.head? := by
      cases rest <;> rfl
    rw [h0, h1]
    cases hg : G (some a) rest.head? with
    | none => simp [hg]
    | some b => simp [hg]

theorem lineTriples_start_mem :
    ∀ (hs : List Nat) (n : Nat) (t : Nat × Nat × Nat),
      t ∈ lineTriples hs n → t.2.1 = t.1 + 1 ∧ t.1 ∈ hs := by
  intro hs
  induction hs with
  | nil => intro n t ht; simp [lineTriples] at ht
  | cons h rest ih =>
    intro n t ht
    simp only [lineTriples, List.mem_cons] at ht
    rcases ht with rfl | ht
    · exact ⟨rfl, by simp⟩
    · obtain ⟨h1, h2⟩ := ih n t ht
      exact ⟨h1, by simp [h2]⟩

theorem lineTriples_mem_start :
    ∀ (hs : List Nat) (n : Nat) (h : Nat), h ∈ hs →
      ∃ t ∈ lineTriples hs n, t.1 = h := by
  intro hs
  induction hs with
  | nil => intro n h hh; simp at hh
  | cons h0 rest ih =>
    intro n h hh
    rcases List.mem_cons.mp hh with rfl | hh
    · exact ⟨(h, h + 1, match rest.head? with | some h' => h' | none => n),
        by simp [lineTriples], rfl⟩
    · obtain ⟨t, ht, hth⟩ := ih n h hh
      exact ⟨t, List.mem_cons_of_mem _ ht, hth⟩

theorem lineTriples_pairwise :
    ∀ (hs : List Nat) (n : Nat), List.Pairwise (· < ·) hs →
      List.Pairwise (fun t1 t2 : Nat × Nat × Nat => t1.2.2 ≤ t2.2.1)
        (lineTriples hs n) := by
  intro hs
  induction hs with
  | nil => intro n _; simp [lineTriples]
  | cons h rest ih =>
    intro n hp
    obtain ⟨hhead, hrest⟩ := List.pairwise_cons.mp hp
    simp only [lineTriples]
    refine List.pairwise_cons.mpr ⟨?_, ih n hrest⟩
    intro t ht
    obtain ⟨hstart, hmem⟩ := lineTriples_start_mem rest n t ht
    cases hr : rest with
    | nil => subst hr; simp at hmem
    | cons h2 rest2 =>
      subst hr
      have hle : h2 ≤ t.1 := by
        rcases List.mem_cons.mp hmem with rfl | hm
        · exact le_refl _
        · exact le_of_lt ((List.pairwise_cons.mp hrest).1 _ hm)
      simp only [List.head?_cons]
      omega

theorem lineTriples_cover :
    ∀ (hs : List Nat) (n : Nat), List.Pairwise (· < ·) hs →
      (∀ h ∈ hs, h < n) → ∀ j, j < n →
      ((∃ t ∈ lineTriples hs n, j = t.1 ∨ (t.2.1 ≤ j ∧ j < t.2.2)) ↔
        ∃ h ∈ hs, h ≤ j) := by
  intro hs
  induction hs with
  | nil => intro n _ _ j hj; simp [lineTriples]
  | cons h rest ih =>
    intro n hp hbnd j hj
    obtain ⟨hhead, hrest⟩ := List.pairwise_cons.mp hp
    have hbnd' : ∀ x ∈ rest, x < n := fun x hx => hbnd x (List.mem_cons_of_mem _ hx)
    constructor
    · rintro ⟨t, ht, hcase⟩
      simp only [lineTriples, List.mem_cons] at ht
      rcases ht with rfl | ht
      · rcases hcase with hcase | hcase
        · exact ⟨h, by simp, le_of_eq hcase.symm⟩
        · obtain ⟨hc1, hc2⟩ := hcase
          dsimp only at hc1
          exact ⟨h, by simp, by omega⟩
      · obtain ⟨h', hh', hle⟩ := (ih n hrest hbnd' j hj).mp ⟨t, ht, hcase⟩
        exact ⟨h', List.mem_cons_of_mem _ hh', hle⟩
    · rintro ⟨h', hh', hle⟩
      rcases List.mem_cons.mp hh' with rfl | hh'
      · cases hr : rest with
        | nil =>
          subst hr
          refine ⟨(h', h' + 1, n), by simp [lineTriples], ?_⟩
          dsimp only
          omega
        | cons h2 rest2 =>
          subst hr
          by_cases hj2 : j < h2
          · refine ⟨(h', h' + 1, h2), by simp [lineTriples], ?_⟩
            dsimp only
            omega
          · obtain ⟨t, ht, hcase⟩ := (ih n hrest hbnd' j hj).mpr
              ⟨h2, by simp, by omega⟩
            exact ⟨t, List.mem_cons_of_mem _ ht, hcase⟩
      · obtain ⟨t, ht, hcase⟩ := (ih n hrest hbnd' j hj).mpr ⟨h', hh', hle⟩
        exact ⟨t, List.mem_cons_of_mem _ ht, hcase⟩

theorem bodyRangeAdj_eq (text : List Char) (lines : List (List Char))
    (bs : List HeadingBoundary) (i : Nat) :
    (match bs.get? i, extractBodyForHeading text lines bs i with
     | some b, some r => some (b, r)
     | _, _ => none)
      = bodyRangeAdj text lines (bs.get? i) (bs.get? (i + 1)) := by
  cases h : bs.get? i with
  | none =>
    rw [List.get?_eq_getElem?] at h
    simp [extractBodyForHeading, h, bodyRangeAdj]
  | some cur =>
    rw [List.get?_eq_getElem?] at h
    simp [extractBodyForHeading, h, bodyRangeAdj]

theorem bodyRangeAdj_walk (text : List Char) (lines : List (List Char)) :
    ∀ bs : List HeadingBoundary,
      ((List.range bs.length).filterMap
        (fun i => bodyRangeAdj text lines (bs.get? i) (bs.get? (i + 1)))).map
        (fun p => (p.1.lineNumber, p.2.startLine, p.2.endLine))
      = lineTriples (bs.map HeadingBoundary.lineNumber) lines.length := by
  intro bs
  induction bs with
  | nil => rfl
  | cons a rest ih =>
    rw [range_filterMap_adjacent]
    dsimp only
    rw [List.map_append, ih]
    congr 1
    cases rest <;> rfl

theorem extractBodyRanges_triples (doc : List Char) :
    (extractBodyRanges doc).map (fun p => (p.1.lineNumber, p.2.startLine, p.2.endLine))
      = lineTriples ((findHeadingBoundaries (splitNl doc)).map HeadingBoundary.lineNumber)
          (splitNl doc).length := by
  unfold extractBodyRanges
  dsimp only
  have hfn : (fun i =>
      match (findHeadingBoundaries (splitNl doc)).get? i,
        extractBodyForHeading doc (splitNl doc) (findHeadingBoundaries (splitNl doc)) i with
      | some b, some r => some (b, r)
      | _, _ => none)
      = (fun i => bodyRangeAdj doc (splitNl doc)
          ((findHeadingBoundaries (splitNl doc)).get? i)
          ((findHeadingBoundaries (splitNl doc)).get? (i + 1))) :=
    funext (fun i => bodyRangeAdj_eq doc (splitNl doc) (findHeadingBoundaries (splitNl doc)) i)
  rw [hfn, bodyRangeAdj_walk]

theorem headingIdxs_sorted (lines : List (List Char)) :
    List.Pairwise (· < ·) (headingIdxs lines) :=
  headingLineNumsFrom_sorted lines 0

theorem headingIdxs_bounds (lines : List (List Char)) :
    ∀ h ∈ headingIdxs lines, h < lines.length := by
  intro h hh
  have := headingLineNumsFrom_bounds lines 0 h hh
  omega

theorem findHeadingBoundaries_map_lineNumber (lines : List (List Char)) :
    (findHeadingBoundaries lines).map HeadingBoundary.lineNumber = headingIdxs lines :=
  findHeadingBoundariesGo_map_lineNumber lines 0 0

/-- **C7** counterexample: in a document whose first line is not a heading,
that line is covered neither by a heading line nor by any body range. -/
theorem claim_C7_counterexample :
    ¬ (∀ j, j < (splitNl (chars "intro\n# C:A - T\nbody")).length →
        ∃ p ∈ extractBodyRanges (chars "intro\n# C:A - T\nbody"),
          p.1.lineNumber = j ∨ (p.2.startLine ≤ j ∧ j < p.2.endLine)) := by
  decide

/-- **C7** (amended): the body ranges never overlap (each ends no later than
the next begins), and together with the heading lines they cover exactly the
lines from the **first heading line** to the end of the document — the whole
document exactly when the document starts with a heading, and nothing when
there is no heading. -/
theorem claim_C7 (doc : List Char) :
    List.Pairwise (fun p q : HeadingBoundary × BodyRange =>
      p.2.endLine ≤ q.2.startLine) (extractBodyRanges doc) ∧
    ∀ j, j < (splitNl doc).length →
      ((∃ p ∈ extractBodyRanges doc,
          p.1.lineNumber = j ∨ (p.2.startLine ≤ j ∧ j < p.2.endLine)) ↔
        ∃ p ∈ extractBodyRanges doc, p.1.lineNumber ≤ j) := by
  have htr := extractBodyRanges_triples doc
  rw [findHeadingBoundaries_map_lineNumber] at htr
  have hsort := headingIdxs_sorted (splitNl doc)
  have hbnd := headingIdxs_bounds (splitNl doc)
  constructor
  · have hP := lineTriples_pairwise (headingIdxs (splitNl doc)) (splitNl doc).length hsort
    rw [← htr, List.pairwise_map] at hP
    exact hP
  · intro j hj
    have hcov := lineTriples_cover (headingIdxs (splitNl doc)) (splitNl doc).length
      hsort hbnd j hj
    rw [← htr] at hcov
    constructor
    · rintro ⟨p, hp, hcase⟩
      have hcase' : j = (p.1.lineNumber, p.2.startLine, p.2.endLine).1 ∨
          ((p.1.lineNumber, p.2.startLine, p.2.endLine).2.1 ≤ j ∧
            j < (p.1.lineNumber, p.2.startLine, p.2.endLine).2.2) :=
        hcase.imp Eq.symm id
      obtain ⟨h', hh', hle⟩ := hcov.mp ⟨_, List.mem_map_of_mem _ hp, hcase'⟩
      obtain ⟨t, htmem, hth⟩ :=
        lineTriples_mem_start (headingIdxs (splitNl doc)) (splitNl doc).length h' hh'
      rw [← htr] at htmem
      obtain ⟨q, hq, hqt⟩ := List.mem_map.mp htmem
      refine ⟨q, hq, ?_⟩
      have hq1 : q.1.lineNumber = t.1 := by rw [← hqt]
      omega
    · rintro ⟨p, hp, hle⟩
      have hmem2 : (p.1.lineNumber, p.2.startLine, p.2.endLine) ∈
          lineTriples (headingIdxs (splitNl doc)) (splitNl doc).length := by
        rw [← htr]
        exact List.mem_map_of_mem _ hp
      have hstart := lineTriples_start_mem _ _ _ hmem2
      obtain ⟨t, htmem, hcase⟩ := hcov.mpr ⟨p.1.lineNumber, hstart.2, hle⟩
      obtain ⟨q, hq, hqt⟩ := List.mem_map.mp htmem
      refine ⟨q, hq, ?_⟩
      rw [← hqt] at hcase
      exact hcase.imp Eq.symm id

/-- **C7** witness: the coverage equivalence applied to a concrete document
at line 1. -/
theorem claim_C7_witness :
    (∃ p ∈ extractBodyRanges (chars "# C:A - T\nbody"),
        p.1.lineNumber = 1 ∨ (p.2.startLine ≤ 1 ∧ 1 < p.2.endLine)) ↔
      ∃ p ∈ extractBodyRanges (chars "# C:A - T\nbody"), p.1.lineNumber ≤ 1 :=
  (claim_C7 (chars "# C:A - T\nbody")).2 1 (by decide)

theorem splitNl_no_nl : ∀ (s : List Char), ∀ l ∈ splitNl s, '\n' ∉ l := by
  intro s
  induction s with
  | nil => intro l hl; simp [splitNl] at hl; simp [hl]
  | cons c rest ih =>
    intro l hl
    simp only [splitNl] at hl
    by_cases hc : c = '\n'
    · rw [if_pos hc] at hl
      rcases List.mem_cons.mp hl with rfl | hl
      · simp
      · exact ih l hl
    · rw [if_neg hc] at hl
      cases hr : splitNl rest with
      | nil => exact absurd hr (splitNl_ne_nil rest)
      | cons hd t =>
        rw [hr] at hl
        rcases List.mem_cons.mp hl with rfl | hl
        · intro hmem
          rcases List.mem_cons.mp hmem with h1 | h1
          · exact hc h1.symm
          · exact ih hd (by rw [hr]; simp) h1
        · exact ih l (by rw [hr]; simp [hl])

theorem splitNl_of_no_nl : ∀ (l : List Char), '\n' ∉ l → splitNl l = [l] := by
  intro l
  induction l with
  | nil => intro _; rfl
  | cons c rest ih =>
    intro h
    simp only [List.mem_cons, not_or] at h
    have hc : ¬ c = '\n' := fun hh => h.1 hh.symm
    simp only [splitNl, if_neg hc]
    rw [ih h.2]

theorem splitNl_append_nl : ∀ (l t : List Char), '\n' ∉ l →
    splitNl (l ++ '\n' :: t) = l :: splitNl t := by
  intro l
  induction l with
  | nil => intro t _; simp [splitNl]
  | cons c rest ih =>
    intro t h
    simp only [List.mem_cons, not_or] at h
    have hc : ¬ c = '\n' := fun hh => h.1 hh.symm
    simp only [List.cons_append, splitNl, if_neg hc, List.append_eq]
    rw [ih t h.2]

theorem splitNl_joinNl : ∀ (ls : List (List Char)), ls ≠ [] →
    (∀ l ∈ ls, '\n' ∉ l) → splitNl (joinNl ls) = ls := by
  intro ls
  induction ls with
  | nil => intro h; exact absurd rfl h
  | cons l rest ih =>
    intro _ hno
    cases rest with
    | nil => exact splitNl_of_no_nl l (hno l (by simp))
    | cons l2 rest2 =>
      show splitNl (l ++ '\n' :: joinNl (l2 :: rest2)) = _
      rw [splitNl_append_nl l _ (hno l (by simp))]
      rw [ih (by simp) (fun x hx => hno x (List.mem_cons_of_mem _ hx))]

theorem headingLineNumsFrom_append :
    ∀ (xs ys : List (List Char)) (i : Nat),
      headingLineNumsFrom (xs ++ ys) i
        = headingLineNumsFrom xs i ++ headingLineNumsFrom ys (i + xs.length) := by
  intro xs
  induction xs with
  | nil => intro ys i; simp [headingLineNumsFrom]
  | cons x rest ih =>
    intro ys i
    simp only [List.cons_append, headingLineNumsFrom, List.length_cons, List.append_eq]
    rw [ih ys (i + 1), List.append_assoc]
    have harith : i + 1 + rest.length = i + (rest.length + 1) := by omega
    rw [harith]

theorem headingLineNumsFrom_eq_nil :
    ∀ (ls : List (List Char)) (i : Nat),
      (∀ l ∈ ls, isHeadingLine l = false) → headingLineNumsFrom ls i = [] := by
  intro ls
  induction ls with
  | nil => intro i _; rfl
  | cons l rest ih =>
    intro i h
    simp only [headingLineNumsFrom]
    rw [h l (by simp), ih (i + 1) (fun x hx => h x (List.mem_cons_of_mem _ hx))]
    rfl

theorem findIdx?_shift (p : HeadingBoundary → Bool) :
    ∀ (l : List HeadingBoundary) (n : Nat),
      l.findIdx? p n = (l.findIdx? p 0).map (· + n) := by
  intro l
  induction l with
  | nil => intro n; rfl
  | cons x xs ih =>
    intro n
    rw [List.findIdx?_cons, List.findIdx?_cons]
    by_cases hp : p x = true
    · simp [hp]
    · simp only [hp, Bool.false_eq_true, if_false]
      rw [ih (n + 1), ih 1, Option.map_map]
      congr 1
      funext a
      simp only [Function.comp]
      omega

theorem findIdx_boundary_spec :
    ∀ (bs : List HeadingBoundary) (h : Nat),
      List.Pairwise (· < ·) (bs.map HeadingBoundary.lineNumber) →
      h ∈ bs.map HeadingBoundary.lineNumber →
      ∃ i b, bs.findIdx? (fun b => b.lineNumber = h) = some i ∧
        bs.get? i = some b ∧ b.lineNumber = h ∧
        ((bs.get? (i + 1)).map HeadingBoundary.lineNumber
          = (bs.map HeadingBoundary.lineNumber).find? (fun j => h < j)) := by
  intro bs
  induction bs with
  | nil => intro h _ hmem; simp at hmem
  | cons b0 rest ih =>
    intro h hsort hmem
    simp only [List.map_cons, List.pairwise_cons] at hsort
    by_cases hp : b0.lineNumber = h
    · refine ⟨0, b0, ?_, rfl, hp, ?_⟩
      · rw [List.findIdx?_cons]
        simp [hp]
      · have hnot : ¬ (h < b0.lineNumber) := by omega
        rw [List.map_cons, List.find?_cons_of_neg _ (by simpa using hnot)]
        cases hr : rest with
        | nil => rfl
        | cons b1 rest2 =>
          have hgt : h < b1.lineNumber := by
            have := hsort.1 b1.lineNumber (by rw [hr]; simp)
            omega
          rw [List.map_cons, List.find?_cons_of_pos _ (by simpa using hgt)]
          rfl
    · have hmem' : h ∈ rest.map HeadingBoundary.lineNumber := by
        rcases List.mem_cons.mp hmem with h1 | h1
        · exact absurd h1.symm hp
        · exact h1
      obtain ⟨i, b, hfi, hget, hbl, hnext⟩ := ih h hsort.2 hmem'
      refine ⟨i + 1, b, ?_, hget, hbl, ?_⟩
      · rw [List.findIdx?_cons]
        simp only [hp, decide_eq_true_eq, if_neg (by simpa using hp)]
        rw [findIdx?_shift, hfi]
        rfl
      · have hlt : b0.lineNumber < h := by
          obtain ⟨b', hb', hb'l⟩ := List.mem_map.mp hmem'
          have := hsort.1 b'.lineNumber (List.mem_map_of_mem _ hb')
          omega
        have hnot : ¬ (h < b0.lineNumber) := by omega
        rw [List.map_cons, List.find?_cons_of_neg _ (by simpa using hnot)]
        exact hnext

theorem extractSingleBody_spec (text : List Char) (h : Nat)
    (hmem : h ∈ headingIdxs (splitNl text)) :
    ∃ br, extractSingleBody text h = some br ∧
      br.startLine = h + 1 ∧
      br.endLine = nextHeadingAfter (splitNl text) h ∧
      br.rawContent = joinNl (((splitNl text).drop (h + 1)).take
        (nextHeadingAfter (splitNl text) h - (h + 1))) := by
  have hmap := findHeadingBoundaries_map_lineNumber (splitNl text)
  have hsort : List.Pairwise (· < ·)
      ((findHeadingBoundaries (splitNl text)).map HeadingBoundary.lineNumber) := by
    rw [hmap]; exact headingIdxs_sorted _
  have hmem' : h ∈ (findHeadingBoundaries (splitNl text)).map HeadingBoundary.lineNumber := by
    rw [hmap]; exact hmem
  obtain ⟨i, b, hfi, hget, hbl, hnext⟩ := findIdx_boundary_spec _ h hsort hmem'
  have hE : (match (findHeadingBoundaries (splitNl text)).get? (i + 1) with
      | some nxt => nxt.lineNumber
      | none => (splitNl text).length)
      = nextHeadingAfter (splitNl text) h := by
    unfold nextHeadingAfter
    rw [← hmap, ← hnext]
    cases (findHeadingBoundaries (splitNl text)).get? (i + 1) <;> rfl
  unfold extractSingleBody
  dsimp only
  rw [hfi]
  unfold extractBodyForHeading
  dsimp only
  rw [hget]
  dsimp only
  refine ⟨_, rfl, ?_, ?_, ?_⟩
  · dsimp only
    rw [hbl]
  · dsimp only
    exact hE
  · dsimp only
    rw [hbl, hE]
    by_cases hlen : h + 1 ≥ (splitNl text).length
    · rw [if_pos hlen]
      rw [List.drop_eq_nil_of_le (by omega)]
      simp
    · rw [if_neg hlen]

theorem mem_headingIdxs {lines : List (List Char)} {j : Nat} :
    j ∈ headingIdxs lines ↔
      ∃ l, lines.get? j = some l ∧ isHeadingLine l = true := by
  unfold headingIdxs
  rw [headingLineNumsFrom_mem lines 0 j]
  simp

theorem natFind?_append_of_none {l1 l2 : List Nat} {p : Nat → Bool}
    (h : ∀ a ∈ l1, p a = false) : (l1 ++ l2).find? p = l2.find? p := by
  induction l1 with
  | nil => rfl
  | cons x xs ih =>
    rw [List.cons_append, List.find?_cons_of_neg _ (by simp [h x (by simp)])]
    exact ih (fun a ha => h a (List.mem_cons_of_mem _ ha))

theorem drop_cons_of_get? {lines : List (List Char)} {j : Nat} {l : List Char}
    (h : lines.get? j = some l) : lines.drop j = l :: lines.drop (j + 1) := by
  induction lines generalizing j with
  | nil => simp [List.get?] at h
  | cons x xs ih =>
    cases j with
    | zero =>
      simp only [List.get?] at h
      cases h
      rfl
    | succ j =>
      simp only [List.get?] at h
      simpa using ih h

theorem nextHeadingAfter_update (lines newLines : List (List Char)) (h : Nat)
    (hlt : h < lines.length)
    (hnew : ∀ l ∈ newLines, isHeadingLine l = false) :
    nextHeadingAfter
        (lines.take (h + 1) ++ newLines ++ lines.drop (nextHeadingAfter lines h)) h
      = h + 1 + newLines.length := by
  have htklen : (lines.take (h + 1)).length = h + 1 := by
    rw [List.length_take]
    omega
  set E := nextHeadingAfter lines h with hEdef
  have hidx : headingIdxs (lines.take (h + 1) ++ newLines ++ lines.drop E)
      = headingLineNumsFrom (lines.take (h + 1)) 0 ++
        headingLineNumsFrom (lines.drop E) (h + 1 + newLines.length) := by
    unfold headingIdxs
    rw [List.append_assoc, headingLineNumsFrom_append, headingLineNumsFrom_append,
      headingLineNumsFrom_eq_nil newLines _ hnew, List.nil_append, htklen]
    have harith : h + 1 + newLines.length = 0 + (h + 1) + newLines.length := by omega
    rw [harith]
  have hskip : ∀ a ∈ headingLineNumsFrom (lines.take (h + 1)) 0,
      (decide (h < a)) = false := by
    intro a ha
    have hb := headingLineNumsFrom_bounds _ 0 a ha
    rw [htklen] at hb
    simp only [decide_eq_false_iff_not, not_lt]
    omega
  rw [show nextHeadingAfter (lines.take (h + 1) ++ newLines ++ lines.drop E) h
      = (match (headingIdxs (lines.take (h + 1) ++ newLines ++ lines.drop E)).find?
          (fun j => h < j) with
        | some j => j
        | none => (lines.take (h + 1) ++ newLines ++ lines.drop E).length) from rfl]
  rw [hidx, natFind?_append_of_none hskip]
  cases hf : (headingIdxs lines).find? (fun j => h < j) with
  | none =>
    have hE : E = lines.length := by
      rw [hEdef]
      unfold nextHeadingAfter
      rw [hf]
    rw [hE, List.drop_length]
    simp only [headingLineNumsFrom, List.find?_nil]
    rw [List.length_append, List.length_append, htklen]
    simp
  | some j =>
    have hE : E = j := by
      rw [hEdef]
      unfold nextHeadingAfter
      rw [hf]
    have hjmem : j ∈ headingIdxs lines := List.mem_of_find?_eq_some hf
    obtain ⟨l, hgl, hhl⟩ := mem_headingIdxs.mp hjmem
    rw [hE, drop_cons_of_get? hgl]
    simp only [headingLineNumsFrom, hhl, if_pos]
    rw [List.singleton_append,
      List.find?_cons_of_pos _ (by simp only [decide_eq_true_eq]; omega)]

/-- **C8** counterexample: replacing a body with text that itself contains a
heading line breaks the round trip — re-extraction stops at the inserted
heading and returns an empty body instead of the replacement. -/
theorem claim_C8_counterexample :
    extractAndUpdateContent (chars "# C:A - T\nold") 0 (chars "# X")
      = some (chars "# C:A - T\n# X") ∧
    (extractSingleBody (chars "# C:A - T\n# X") 0).map BodyRange.rawContent
      = some [] ∧
    ([] : List Char) ≠ chars "# X" := by decide

/-- **C8** (amended): for a heading line `h` of the document and a replacement
text **none of whose lines is a heading**, updating and then re-extracting
that heading's body returns exactly the replacement text, and the document
splits into the untouched prefix (up to and including the heading), the
replacement lines, and the untouched suffix (from the old body's end line). -/
theorem claim_C8 (doc new : List Char) (h : Nat) (L : List Char)
    (hL : (splitNl doc).get? h = some L)
    (hHL : isHeadingLine L = true)
    (hnew : ∀ l ∈ splitNl new, isHeadingLine l = false) :
    ∃ doc' br,
      extractSingleBody doc h = some br ∧
      extractAndUpdateContent doc h new = some doc' ∧
      (extractSingleBody doc' h).map BodyRange.rawContent = some new ∧
      splitNl doc' = (splitNl doc).take (h + 1) ++ splitNl new ++
        (splitNl doc).drop br.endLine := by
  have hlt : h < (splitNl doc).length := by
    by_contra hge
    rw [List.get?_eq_none.mpr (by omega)] at hL
    exact Option.noConfusion hL
  have hmem : h ∈ headingIdxs (splitNl doc) := mem_headingIdxs.mpr ⟨L, hL, hHL⟩
  obtain ⟨br, hsb, hstart, hend, _⟩ := extractSingleBody_spec doc h hmem
  have htklen : ((splitNl doc).take (h + 1)).length = h + 1 := by
    rw [List.length_take]
    omega
  set lines2 := (splitNl doc).take (h + 1) ++ splitNl new ++
    (splitNl doc).drop br.endLine with hlines2
  have hupd : extractAndUpdateContent doc h new = some (joinNl lines2) := by
    unfold extractAndUpdateContent
    rw [hsb]
    dsimp only
    rw [hstart]
  have hsplit : splitNl (joinNl lines2) = lines2 := by
    refine splitNl_joinNl lines2 ?_ ?_
    · have htake : (splitNl doc).take (h + 1) ≠ [] := by
        intro hx
        rw [hx] at htklen
        simp at htklen
      rw [hlines2]
      intro hx
      exact htake (List.append_eq_nil.mp (List.append_eq_nil.mp hx).1).1
    · intro l hl
      rw [hlines2] at hl
      rcases List.mem_append.mp hl with hl1 | hl2
      · rcases List.mem_append.mp hl1 with hl3 | hl4
        · exact splitNl_no_nl doc l (List.Sublist.subset (List.take_sublist _ _) hl3)
        · exact splitNl_no_nl new l hl4
      · exact splitNl_no_nl doc l (List.Sublist.subset (List.drop_sublist _ _) hl2)
  have hget2 : lines2.get? h = some L := by
    rw [hlines2, List.append_assoc]
    rw [List.get?_append (by rw [htklen]; omega)]
    rw [List.get?_take (by omega)]
    exact hL
  have hmem2 : h ∈ headingIdxs lines2 := mem_headingIdxs.mpr ⟨L, hget2, hHL⟩
  have hnext2 : nextHeadingAfter lines2 h = h + 1 + (splitNl new).length := by
    rw [hlines2, hend]
    exact nextHeadingAfter_update (splitNl doc) (splitNl new) h hlt hnew
  obtain ⟨br2, hsb2, hstart2, hend2, hraw2⟩ := extractSingleBody_spec (joinNl lines2) h
    (by rw [hsplit]; exact hmem2)
  rw [hsplit] at hend2 hraw2
  rw [hnext2] at hend2 hraw2
  have hdrop2 : lines2.drop (h + 1) = splitNl new ++ (splitNl doc).drop br.endLine := by
    have hdl := List.drop_left ((splitNl doc).take (h + 1))
      (splitNl new ++ (splitNl doc).drop br.endLine)
    rw [htklen] at hdl
    rw [hlines2, List.append_assoc]
    exact hdl
  have hraw2' : br2.rawContent = new := by
    rw [hraw2, hdrop2]
    have harith : h + 1 + (splitNl new).length - (h + 1) = (splitNl new).length := by
      omega
    rw [harith, List.take_left]
    exact joinNl_splitNl new
  exact ⟨joinNl lines2, br, hsb, hupd,
    by rw [hsb2]; exact congrArg some hraw2', hsplit⟩

/-- **C8** witness: a concrete document, heading line 0, and heading-free
replacement text. -/
theorem claim_C8_witness :
    ∃ doc' br,
      extractSingleBody (chars "# C:A - T\nold1\nold2\n## C:B\nkeep") 0 = some br ∧
      extractAndUpdateContent (chars "# C:A - T\nold1\nold2\n## C:B\nkeep") 0
        (chars "fresh body") = some doc' ∧
      (extractSingleBody doc' 0).map BodyRange.rawContent = some (chars "fresh body") ∧
      splitNl doc' = (splitNl (chars "# C:A - T\nold1\nold2\n## C:B\nkeep")).take 1 ++
        splitNl (chars "fresh body") ++
        (splitNl (chars "# C:A - T\nold1\nold2\n## C:B\nkeep")).drop br.endLine :=
  claim_C8 (chars "# C:A - T\nold1\nold2\n## C:B\nkeep") (chars "fresh body") 0
    (chars "# C:A - T") (by decide) (by decide) (by decide)

theorem mem_insertDesc {x m : SearchMatch} {l : List SearchMatch} :
    m ∈ insertDesc x l ↔ m = x ∨ m ∈ l := by
  induction l with
  | nil => simp [insertDesc]
  | cons y ys ih =>
    simp only [insertDesc]
    split
    · simp [List.mem_cons]
    · simp only [List.mem_cons, ih]
      tauto

theorem mem_sortDesc {m : SearchMatch} {l : List SearchMatch} :
    m ∈ sortDesc l ↔ m ∈ l := by
  induction l with
  | nil => simp [sortDesc]
  | cons x xs ih => simp [sortDesc, mem_insertDesc, ih]

theorem insertDesc_eq_cons {x : SearchMatch} {l : List SearchMatch}
    (h : ∀ y ∈ l, y.matchScore < x.matchScore) :
    insertDesc x l = x :: l := by
  cases l with
  | nil => rfl
  | cons y ys =>
    simp only [insertDesc, if_pos (h y (List.mem_cons_self y ys))]

theorem foldl_grows {α : Type} (f : List SearchMatch → α → List SearchMatch)
    (P : SearchMatch → Prop)
    (hf : ∀ acc a, ∃ ext, f acc a = acc ++ ext ∧ ∀ m ∈ ext, P m) :
    ∀ (l : List α) (acc : List SearchMatch),
      ∃ ext, l.foldl f acc = acc ++ ext ∧ ∀ m ∈ ext, P m := by
  intro l
  induction l with
  | nil => intro acc; exact ⟨[], by simp, by simp⟩
  | cons a as ih =>
    intro acc
    obtain ⟨e1, he1, hp1⟩ := hf acc a
    obtain ⟨e2, he2, hp2⟩ := ih (f acc a)
    refine ⟨e1 ++ e2, ?_, ?_⟩
    · rw [List.foldl_cons, he2, he1, List.append_assoc]
    · intro m hm
      rcases List.mem_append.mp hm with h | h
      · exact hp1 m h
      · exact hp2 m h

theorem div_mul_lt_one_of_le {x y q : ℚ} (hx : 0 ≤ x) (hxy : x ≤ y)
    (hq0 : 0 ≤ q) (hq1 : q < 1) : x / y * q < 1 := by
  rcases eq_or_lt_of_le (le_trans hx hxy) with hy | hy
  · rw [← hy, div_zero, zero_mul]
    exact zero_lt_one
  · have hr : x / y ≤ 1 := by
      rw [div_le_one hy]
      exact hxy
    calc x / y * q ≤ 1 * q := mul_le_mul_of_nonneg_right hr hq0
      _ = q := one_mul q
      _ < 1 := hq1

theorem head_of_take_cons (x : SearchMatch) (l : List SearchMatch) (n : Nat)
    (hn : n ≠ 0) : ((x :: l).take n).head? = some x := by
  cases n with
  | zero => exact absurd rfl hn
  | succ k => rw [List.take_succ_cons]; rfl

theorem search_head_aux (F : List SearchMatch → List Char → List SearchMatch)
    (em : SearchMatch) (pm : List SearchMatch) (ws : List (List Char))
    (hF : ∀ acc a, ∃ ext, F acc a = acc ++ ext ∧ ∀ m ∈ ext, m.matchScore < 1)
    (hem : em.matchScore = 1)
    (hpm : ∀ m ∈ pm, m.matchScore < 1) :
    ((sortDesc (List.foldl F (em :: pm) ws)).take 10).head? = some em ∧
    ∀ m ∈ (sortDesc (List.foldl F (em :: pm) ws)).take 10,
      m.matchType ≠ em.matchType → m.matchScore < 1 := by
  obtain ⟨ext, hext, hPext⟩ := foldl_grows F (fun m => m.matchScore < 1) hF ws (em :: pm)
  rw [hext, List.cons_append]
  have hrest : ∀ y ∈ pm ++ ext, y.matchScore < 1 := fun y hy =>
    (List.mem_append.mp hy).elim (hpm y) (hPext y)
  rw [sortDesc, insertDesc_eq_cons (fun y hy => by
    rw [hem]; exact hrest y (mem_sortDesc.mp hy))]
  constructor
  · exact head_of_take_cons em _ 10 (by decide)
  · intro m hm hmt
    have hm2 : m ∈ em :: sortDesc (pm ++ ext) := List.take_subset _ _ hm
    rcases List.mem_cons.mp hm2 with hme | hms
    · exact absurd (by rw [hme]) hmt
    · exact hrest m (mem_sortDesc.mp hms)

/-- **C3** counterexample: `_normalize_for_search` lowercases, and
`_id_index` stores one element id per normalized key, so adding `C:Foo` and
then `c:foo` makes the key `c:foo` point at the later element.  The index
still contains `C:Foo`, yet searching for the exact id `C:Foo` does not
return it first — the head of the result is `c:foo`. -/
theorem claim_C3_counterexample :
    hasElement
        (addElement (addElement emptyIndex
          ⟨chars "C:Foo", .component, chars "Alpha", .conventions, 1, [], [], [], [], none⟩)
          ⟨chars "c:foo", .component, chars "Beta", .conventions, 1, [], [], [], [], none⟩)
        (chars "C:Foo") = true ∧
    (search
        (addElement (addElement emptyIndex
          ⟨chars "C:Foo", .component, chars "Alpha", .conventions, 1, [], [], [], [], none⟩)
          ⟨chars "c:foo", .component, chars "Beta", .conventions, 1, [], [], [], [], none⟩)
        (chars "C:Foo")).head?.map SearchMatch.elementId ≠ some (chars "C:Foo") := by
  decide

/-- **C3** (amended): if the index holds `E` under its id AND the internal
`_id_index` still maps `normalize(E.id)` to `E.id` (no case-collision
overwrote it), and `E.id` is nonempty without surrounding whitespace, then
searching for the exact id returns `E` first with score `1.0`, and every
match of a non-exact tier (partial id, title exact, title partial) in the
result has score strictly below `1`. -/
theorem claim_C3 (s : IndexState) (E : DocElement)
    (hE : alLookup s.elements E.id = some E)
    (hId : alLookup s.idIndex (normalizeForSearch E.id) = some E.id)
    (hstrip : strip E.id = E.id) (hne : E.id ≠ []) :
    (search s E.id).head? = some ⟨E.id, E.title, MatchType.idExact, 1, E.id⟩ ∧
    ∀ m ∈ search s E.id, m.matchType ≠ MatchType.idExact → m.matchScore < 1 := by
  unfold search searchWithLimit
  rw [hstrip, if_neg hne]
  dsimp only
  rw [hId]
  dsimp only
  rw [hE]
  dsimp only
  rw [List.singleton_append]
  refine search_head_aux _ _ _ _ ?_ rfl ?_
  · intro acc a
    cases h : alLookup s.titleIndex a with
    | none => exact ⟨[], by simp [h], by simp⟩
    | some eids =>
      refine foldl_grows _ _ ?_ eids acc
      intro acc2 eid
      cases he : alLookup s.elements eid with
      | none => exact ⟨[], by simp [he], by simp⟩
      | some e =>
        by_cases hany : (acc2.any fun m => decide (m.elementId = eid)) = true
        · exact ⟨[], by simp [he, hany], by simp⟩
        · refine ⟨_, by simp only [he]; rw [if_neg hany], ?_⟩
          intro m hm
          rw [List.mem_singleton] at hm
          subst hm
          dsimp only
          by_cases hq : normalizeForSearch e.title = normalizeForSearch E.id
          · rw [if_pos hq]
            norm_num
          · rw [if_neg hq]
            dsimp only
            refine div_mul_lt_one_of_le (by positivity) ?_ (by norm_num) (by norm_num)
            exact_mod_cast le_trans (List.length_filter_le _ _) le_sup_left
  · intro m hm
    rw [List.mem_flatMap] at hm
    obtain ⟨kv, hkv, hm⟩ := hm
    split at hm
    case isTrue hcond =>
      rw [List.mem_filterMap] at hm
      obtain ⟨eid, _, hg⟩ := hm
      split at hg
      case isTrue =>
        cases halk : alLookup s.elements eid with
        | none => rw [halk] at hg; exact Option.noConfusion hg
        | some e =>
          rw [halk] at hg
          dsimp only at hg
          rw [Option.some.injEq] at hg
          subst hg
          dsimp only
          have hinf : normalizeForSearch E.id <:+: kv.1 := by
            have hc := hcond
            simp only [Bool.and_eq_true, decide_eq_true_eq] at hc
            exact hc.1
          refine div_mul_lt_one_of_le (by positivity) ?_ (by norm_num) (by norm_num)
          exact_mod_cast hinf.length_le
      case isFalse => exact Option.noConfusion hg
    case isFalse => simp at hm

/-- **C3** witness: a one-element index holding `C:Foo`; the exact-id query
returns it first with score `1`. -/
theorem claim_C3_witness :
    (search (addElement emptyIndex
        ⟨chars "C:Foo", .component, chars "Alpha", .conventions, 1, [], [], [], [], none⟩)
        (chars "C:Foo")).head?
      = some ⟨chars "C:Foo", chars "Alpha", MatchType.idExact, 1, chars "C:Foo"⟩ ∧
    ∀ m ∈ search (addElement emptyIndex
        ⟨chars "C:Foo", .component, chars "Alpha", .conventions, 1, [], [], [], [], none⟩)
        (chars "C:Foo"),
      m.matchType ≠ MatchType.idExact → m.matchScore < 1 :=
  claim_C3 (addElement emptyIndex
      ⟨chars "C:Foo", .component, chars "Alpha", .conventions, 1, [], [], [], [], none⟩)
    ⟨chars "C:Foo", .component, chars "Alpha", .conventions, 1, [], [], [], [], none⟩
    (by decide) (by decide) (by decide) (by decide)

theorem setDiscard_idem (l : List (List Char)) (v : List Char) :
    setDiscard (setDiscard l v) v = setDiscard l v := by
  simp [setDiscard, List.filter_filter]

theorem setAdd_idem (l : List (List Char)) (v : List Char) :
    setAdd (setAdd l v) v = setAdd l v := by
  have hv : v ∈ setAdd l v := mem_setAdd.mpr (Or.inl rfl)
  unfold setAdd
  rw [if_pos (by exact hv)]

theorem wfm_foldl
    (f : List (List Char × List (List Char)) → List Char → List (List Char × List (List Char)))
    (hw : ∀ m k, wfm m → wfm (f m k)) :
    ∀ (rs : List (List Char)) (bl : List (List Char × List (List Char))),
      wfm bl → wfm (rs.foldl f bl) := by
  intro rs
  induction rs with
  | nil => intro bl h; exact h
  | cons r rest ih => intro bl h; exact ih (f bl r) (hw bl r h)

theorem mget_foldl_pointwise
    (f : List (List Char × List (List Char)) → List Char → List (List Char × List (List Char)))
    (g : List (List Char) → List (List Char))
    (hf : ∀ m k k', wfm m → mget (f m k) k' = if k = k' then g (mget m k) else mget m k')
    (hw : ∀ m k, wfm m → wfm (f m k))
    (hidem : ∀ l, g (g l) = g l) :
    ∀ (rs : List (List Char)) (bl : List (List Char × List (List Char))) (y : List Char),
      wfm bl →
      mget (rs.foldl f bl) y = if y ∈ rs then g (mget bl y) else mget bl y := by
  intro rs
  induction rs with
  | nil => intro bl y _; simp
  | cons r rest ih =>
    intro bl y hwb
    rw [List.foldl_cons, ih (f bl r) y (hw bl r hwb), hf bl r y hwb]
    by_cases h1 : r = y
    · subst h1
      by_cases h2 : r ∈ rest
      · simp [h2, hidem]
      · simp [h2]
    · have h1' : ¬ y = r := fun h => h1 h.symm
      by_cases h2 : y ∈ rest
      · simp [h1, h2, List.mem_cons]
      · simp [h1, h1', h2, List.mem_cons]

theorem foldl_fix {β γ δ : Type} (f : γ → β → γ) (g : γ → δ)
    (hf : ∀ c b, g (f c b) = g c) (l : List β) (c : γ) :
    g (l.foldl f c) = g c := by
  induction l generalizing c with
  | nil => rfl
  | cons b bs ih => rw [List.foldl_cons, ih (f c b), hf]

theorem addToSearchIndex_graph_eq (s : IndexState) (e : DocElement) :
    (addToSearchIndex s e).references = s.references ∧
    (addToSearchIndex s e).backlinks = s.backlinks ∧
    (addToSearchIndex s e).elements = s.elements := by
  have key : ((addToSearchIndex s e).references, (addToSearchIndex s e).backlinks,
      (addToSearchIndex s e).elements) = (s.references, s.backlinks, s.elements) := by
    unfold addToSearchIndex
    dsimp only
    refine Eq.trans (foldl_fix _ (fun st : IndexState =>
      (st.references, st.backlinks, st.elements)) ?_ _ _) ?_
    · intro c b
      dsimp only
      split <;> rfl
    · refine Eq.trans (foldl_fix _ (fun st : IndexState =>
        (st.references, st.backlinks, st.elements)) ?_ _ _) rfl
      intro c b
      rfl
  simp only [Prod.mk.injEq] at key
  exact key

theorem removeFromSearchIndex_graph_eq (s : IndexState) (e : DocElement) :
    (removeFromSearchIndex s e).references = s.references ∧
    (removeFromSearchIndex s e).backlinks = s.backlinks ∧
    (removeFromSearchIndex s e).elements = s.elements := by
  have key : ((removeFromSearchIndex s e).references, (removeFromSearchIndex s e).backlinks,
      (removeFromSearchIndex s e).elements) = (s.references, s.backlinks, s.elements) := by
    unfold removeFromSearchIndex
    dsimp only
    refine Eq.trans (foldl_fix _ (fun st : IndexState =>
      (st.references, st.backlinks, st.elements)) ?_ _ _) ?_
    · intro c b
      dsimp only
      split <;> rfl
    · refine Eq.trans (foldl_fix _ (fun st : IndexState =>
        (st.references, st.backlinks, st.elements)) ?_ _ _) ?_
      · intro c b
        rfl
      · split <;> rfl
  simp only [Prod.mk.injEq] at key
  exact key

theorem refGraphInv_addElementReferences (s : IndexState) (e : DocElement)
    (hinv : RefGraphInv s) (hwb : wfm s.backlinks) :
    RefGraphInv (addElementReferences s e) := by
  intro x y
  unfold addElementReferences
  dsimp only
  have hrefs : mget (alInsert s.references e.id (setOf e.refs)) x
      = if e.id = x then setOf e.refs else mget s.references x := by
    unfold mget
    rw [alLookup_insert]
    by_cases h : e.id = x <;> simp [h]
  have hbl1 : ∀ z, mget ((mget s.references e.id).foldl
        (fun bl r => mapSetDiscardKeep bl r e.id) s.backlinks) z
      = if z ∈ mget s.references e.id then setDiscard (mget s.backlinks z) e.id
        else mget s.backlinks z :=
    fun z => mget_foldl_pointwise _ (fun l => setDiscard l e.id)
      (fun m k k' _ => mget_mapSetDiscardKeep m k e.id k')
      (fun m k hm => wfm_mapSetDiscardKeep k e.id hm)
      (fun l => setDiscard_idem l e.id) _ s.backlinks z hwb
  have hwb1 : wfm ((mget s.references e.id).foldl
      (fun bl r => mapSetDiscardKeep bl r e.id) s.backlinks) :=
    wfm_foldl _ (fun m k hm => wfm_mapSetDiscardKeep k e.id hm) _ _ hwb
  have hbl2 : mget ((setOf e.refs).foldl (fun bl r => mapSetAdd bl r e.id)
        ((mget s.references e.id).foldl
          (fun bl r => mapSetDiscardKeep bl r e.id) s.backlinks)) y
      = if y ∈ setOf e.refs
        then setAdd (mget ((mget s.references e.id).foldl
          (fun bl r => mapSetDiscardKeep bl r e.id) s.backlinks) y) e.id
        else mget ((mget s.references e.id).foldl
          (fun bl r => mapSetDiscardKeep bl r e.id) s.backlinks) y :=
    mget_foldl_pointwise _ (fun l => setAdd l e.id)
      (fun m k k' _ => mget_mapSetAdd m k e.id k')
      (fun m k hm => wfm_mapSetAdd k e.id hm)
      (fun l => setAdd_idem l e.id) _ _ y hwb1
  rw [hrefs, hbl2, hbl1 y]
  by_cases hx : e.id = x
  · subst hx
    rw [if_pos rfl]
    by_cases hy : y ∈ setOf e.refs
    · simp [hy, mem_setAdd]
    · rw [if_neg hy]
      refine iff_of_false hy (fun hc => ?_)
      by_cases hyo : y ∈ mget s.references e.id
      · rw [if_pos hyo] at hc
        exact (mem_setDiscard.mp hc).2 rfl
      · rw [if_neg hyo] at hc
        exact hyo ((hinv e.id y).mpr hc)
  · rw [if_neg hx]
    have hxne : x ≠ e.id := fun h => hx h.symm
    by_cases hy : y ∈ setOf e.refs <;> by_cases hyo : y ∈ mget s.references e.id <;>
      simp [hy, hyo, mem_setAdd, mem_setDiscard, hxne, hinv x y]

theorem refGraphInv_removeElementReferences (s : IndexState) (i : List Char)
    (hinv : RefGraphInv s) (hwr : wfm s.references) (hwb : wfm s.backlinks) :
    RefGraphInv (removeElementReferences s i) := by
  intro x y
  unfold removeElementReferences
  dsimp only
  have hbl1 : ∀ z, mget ((mget s.references i).foldl
        (fun bl r => mapSetDiscardDrop bl r i) s.backlinks) z
      = if z ∈ mget s.references i then setDiscard (mget s.backlinks z) i
        else mget s.backlinks z :=
    fun z => mget_foldl_pointwise _ (fun l => setDiscard l i)
      (fun m k k' hm => mget_mapSetDiscardDrop m k i k' hm)
      (fun m k hm => wfm_mapSetDiscardDrop k i hm)
      (fun l => setDiscard_idem l i) _ s.backlinks z hwb
  have hwb1 : wfm ((mget s.references i).foldl
      (fun bl r => mapSetDiscardDrop bl r i) s.backlinks) :=
    wfm_foldl _ (fun m k hm => wfm_mapSetDiscardDrop k i hm) _ _ hwb
  set bl1 := (mget s.references i).foldl
    (fun bl r => mapSetDiscardDrop bl r i) s.backlinks with hbl1def
  set refs1 := if alContains s.references i then alErase s.references i
    else s.references with hrefs1def
  have hrefs1 : ∀ z, mget refs1 z = if z = i then [] else mget s.references z := by
    intro z
    rw [hrefs1def]
    by_cases hc : alContains s.references i
    · rw [if_pos hc]
      unfold mget
      rw [alLookup_erase _ _ _ hwr]
      by_cases hz : z = i
      · simp [hz]
      · have hzi : ¬ i = z := fun h => hz h.symm
        simp [hzi, hz]
    · rw [if_neg hc]
      by_cases hz : z = i
      · subst hz
        unfold alContains at hc
        rw [Option.not_isSome_iff_eq_none] at hc
        simp [mget, hc]
      · simp [hz]
  have hwr1 : wfm refs1 := by
    rw [hrefs1def]
    split
    · exact wfm_erase _ hwr
    · exact hwr
  have hblx : ∀ a z, a ≠ i → (a ∈ mget bl1 z ↔ a ∈ mget s.backlinks z) := by
    intro a z ha
    rw [hbl1 z]
    split
    · simp [mem_setDiscard, ha]
    · exact Iff.rfl
  by_cases hI : alContains bl1 i = true
  · rw [if_pos hI, if_pos hI]
    have hrefs2 : mget ((mget bl1 i).foldl
          (fun rf z => mapSetDiscardKeep rf z i) refs1) x
        = if x ∈ mget bl1 i then setDiscard (mget refs1 x) i else mget refs1 x :=
      mget_foldl_pointwise _ (fun l => setDiscard l i)
        (fun m k k' _ => mget_mapSetDiscardKeep m k i k')
        (fun m k hm => wfm_mapSetDiscardKeep k i hm)
        (fun l => setDiscard_idem l i) _ _ x hwr1
    have hbl2 : mget (alErase bl1 i) y = if i = y then [] else mget bl1 y := by
      unfold mget
      rw [alLookup_erase _ _ _ hwb1]
      by_cases hz : i = y <;> simp [hz]
    rw [hrefs2, hbl2]
    by_cases hyi : i = y
    · rw [if_pos hyi]
      subst hyi
      refine iff_of_false (fun hc => ?_) (by simp)
      by_cases hxinc : x ∈ mget bl1 i
      · rw [if_pos hxinc] at hc
        exact (mem_setDiscard.mp hc).2 rfl
      · rw [if_neg hxinc, hrefs1 x] at hc
        by_cases hxi : x = i
        · rw [if_pos hxi] at hc
          simp at hc
        · rw [if_neg hxi] at hc
          exact hxinc ((hblx x i hxi).mpr ((hinv x i).mp hc))
    · rw [if_neg hyi]
      have hyi' : ¬ y = i := fun h => hyi h.symm
      by_cases hxi : x = i
      · have hlhs : ¬ y ∈ (if x ∈ mget bl1 i then setDiscard (mget refs1 x) i
            else mget refs1 x) := by
          rw [hrefs1 x, if_pos hxi]
          split
          · simp [setDiscard]
          · simp
        refine iff_of_false hlhs (fun hc => ?_)
        rw [hbl1 y] at hc
        by_cases hyr : y ∈ mget s.references i
        · rw [if_pos hyr] at hc
          exact (mem_setDiscard.mp hc).2 hxi
        · rw [if_neg hyr] at hc
          exact absurd ((hinv x y).mpr hc) (by rw [hxi, hrefs1 i] at *; exact fun hmem => hyr (by rwa [hxi] at hmem))
      · have hlhs : (y ∈ (if x ∈ mget bl1 i then setDiscard (mget refs1 x) i
            else mget refs1 x)) ↔ y ∈ mget s.references x := by
          rw [hrefs1 x, if_neg hxi]
          split
          · simp [mem_setDiscard, hyi']
          · exact Iff.rfl
        rw [hlhs]
        exact (hinv x y).trans (hblx x y hxi).symm
  · rw [if_neg hI, if_neg hI]
    have hincnil : mget bl1 i = [] := by
      unfold alContains at hI
      rw [Option.not_isSome_iff_eq_none] at hI
      simp [mget, hI]
    rw [hrefs1 x]
    by_cases hxi : x = i
    · rw [if_pos hxi]
      subst hxi
      refine iff_of_false (by simp) (fun hc => ?_)
      rw [hbl1 y] at hc
      by_cases hyr : y ∈ mget s.references x
      · rw [if_pos hyr] at hc
        exact (mem_setDiscard.mp hc).2 rfl
      · rw [if_neg hyr] at hc
        exact hyr ((hinv x y).mpr hc)
    · rw [if_neg hxi]
      by_cases hyi : y = i
      · subst hyi
        refine iff_of_false (fun hc => ?_) (by simp [hincnil])
        exact (List.not_mem_nil x) (hincnil ▸ (hblx x y hxi).mpr ((hinv x y).mp hc))
      · exact (hinv x y).trans (hblx x y hxi).symm

theorem refGraphInv_emptyIndex : RefGraphInv emptyIndex := by
  intro x y
  simp [emptyIndex, mget, alLookup]

theorem indexWf_emptyIndex : IndexWf emptyIndex := ⟨wfm_nil, wfm_nil, wfm_nil⟩

theorem indexWf_addElementReferences (s : IndexState) (e : DocElement)
    (h : IndexWf s) : IndexWf (addElementReferences s e) := by
  obtain ⟨he, hr, hb⟩ := h
  unfold addElementReferences
  dsimp only
  refine ⟨he, wfm_insert _ _ hr, ?_⟩
  exact wfm_foldl _ (fun m k hm => wfm_mapSetAdd k e.id hm) _ _
    (wfm_foldl _ (fun m k hm => wfm_mapSetDiscardKeep k e.id hm) _ _ hb)

theorem indexWf_removeElementReferences (s : IndexState) (i : List Char)
    (h : IndexWf s) : IndexWf (removeElementReferences s i) := by
  obtain ⟨he, hr, hb⟩ := h
  unfold removeElementReferences
  dsimp only
  have hwr1 : wfm (if alContains s.references i = true then alErase s.references i
      else s.references) := by
    split
    · exact wfm_erase _ hr
    · exact hr
  have hwb1 : wfm ((mget s.references i).foldl
      (fun bl r => mapSetDiscardDrop bl r i) s.backlinks) :=
    wfm_foldl _ (fun m k hm => wfm_mapSetDiscardDrop k i hm) _ _ hb
  refine ⟨he, ?_, ?_⟩
  · split
    · exact wfm_foldl _ (fun m k hm => wfm_mapSetDiscardKeep k i hm) _ _ hwr1
    · exact hwr1
  · split
    · exact wfm_erase _ hwb1
    · exact hwb1

theorem inv_step_remove (t : IndexState) (i : List Char) (e : DocElement)
    (hinv : RefGraphInv t) (hw : IndexWf t) :
    RefGraphInv (removeFromSearchIndex (removeElementReferences t i) e) ∧
    IndexWf (removeFromSearchIndex (removeElementReferences t i) e) := by
  obtain ⟨g1, g2, g3⟩ := removeFromSearchIndex_graph_eq (removeElementReferences t i) e
  have h3 := refGraphInv_removeElementReferences t i hinv hw.2.1 hw.2.2
  have hw3 := indexWf_removeElementReferences t i hw
  refine ⟨fun x y => ?_, ?_, ?_, ?_⟩
  · rw [g1, g2]
    exact h3 x y
  · rw [g3]
    exact hw3.1
  · rw [g1]
    exact hw3.2.1
  · rw [g2]
    exact hw3.2.2

theorem inv_step_add (t : IndexState) (e : DocElement)
    (hinv : RefGraphInv t) (hw : IndexWf t) :
    RefGraphInv (addToSearchIndex (addElementReferences t e) e) ∧
    IndexWf (addToSearchIndex (addElementReferences t e) e) := by
  obtain ⟨g1, g2, g3⟩ := addToSearchIndex_graph_eq (addElementReferences t e) e
  have h3 := refGraphInv_addElementReferences t e hinv hw.2.2
  have hw3 := indexWf_addElementReferences t e hw
  refine ⟨fun x y => ?_, ?_, ?_, ?_⟩
  · rw [g1, g2]
    exact h3 x y
  · rw [g3]
    exact hw3.1
  · rw [g1]
    exact hw3.2.1
  · rw [g2]
    exact hw3.2.2

theorem inv_removeElement (s : IndexState) (i : List Char)
    (hinv : RefGraphInv s) (hw : IndexWf s) :
    RefGraphInv (removeElement s i).1 ∧ IndexWf (removeElement s i).1 := by
  unfold removeElement
  cases he : alLookup s.elements i with
  | none => exact ⟨hinv, hw⟩
  | some e =>
    dsimp only
    refine inv_step_remove _ i e ?_ ?_
    · exact hinv
    · exact ⟨wfm_erase _ hw.1, hw.2.1, hw.2.2⟩

theorem inv_addElement (s : IndexState) (e : DocElement)
    (hinv : RefGraphInv s) (hw : IndexWf s) :
    RefGraphInv (addElement s e) ∧ IndexWf (addElement s e) := by
  unfold addElement
  dsimp only
  by_cases hc : alContains s.elements e.id = true
  · rw [if_pos hc]
    obtain ⟨h1, h2⟩ := inv_removeElement s e.id hinv hw
    refine inv_step_add _ e ?_ ?_
    · exact h1
    · exact ⟨wfm_insert _ _ h2.1, h2.2.1, h2.2.2⟩
  · rw [if_neg hc]
    refine inv_step_add _ e ?_ ?_
    · exact hinv
    · exact ⟨wfm_insert _ _ hw.1, hw.2.1, hw.2.2⟩

theorem inv_applyOps (ops : List IndexOp) :
    RefGraphInv (applyOps ops) ∧ IndexWf (applyOps ops) := by
  unfold applyOps
  have key : ∀ (l : List IndexOp) (s : IndexState), RefGraphInv s → IndexWf s →
      RefGraphInv (l.foldl applyOp s) ∧ IndexWf (l.foldl applyOp s) := by
    intro l
    induction l with
    | nil => intro s h1 h2; exact ⟨h1, h2⟩
    | cons op rest ih =>
      intro s h1 h2
      have hstep : RefGraphInv (applyOp s op) ∧ IndexWf (applyOp s op) := by
        cases op with
        | add e => exact inv_addElement s e h1 h2
        | remove i => exact inv_removeElement s i h1 h2
      exact List.foldl_cons _ _ ▸ ih (applyOp s op) hstep.1 hstep.2
  exact key ops emptyIndex refGraphInv_emptyIndex indexWf_emptyIndex

/-- **C1**: after any sequence of `add_element` / `remove_element` operations
(including replacement), the reference and backlink maps are mutual
transposes: for all `A`, `B` in the index, `B ∈ get_backlinks(A)` iff
`A ∈ get_references(B)`. -/
theorem claim_C1 (ops : List IndexOp) (A B : List Char)
    (hA : hasElement (applyOps ops) A = true)
    (hB : hasElement (applyOps ops) B = true) :
    B ∈ getBacklinks (applyOps ops) A ↔ A ∈ getReferences (applyOps ops) B :=
  ((inv_applyOps ops).1 B A).symm

/-- **C1** witness: add `C:A` referencing `C:B`, add `C:B` referencing `C:A`,
then replace `C:B` with a version referencing nothing. -/
theorem claim_C1_witness :
    hasElement (applyOps
      [.add ⟨chars "C:A", .component, chars "A", .conventions, 1, [], [],
          [chars "C:B"], [], none⟩,
        .add ⟨chars "C:B", .component, chars "B", .conventions, 1, [], [],
          [chars "C:A"], [], none⟩,
        .add ⟨chars "C:B", .component, chars "B2", .conventions, 1, [], [],
          [], [], none⟩]) (chars "C:A") = true ∧
    hasElement (applyOps
      [.add ⟨chars "C:A", .component, chars "A", .conventions, 1, [], [],
          [chars "C:B"], [], none⟩,
        .add ⟨chars "C:B", .component, chars "B", .conventions, 1, [], [],
          [chars "C:A"], [], none⟩,
        .add ⟨chars "C:B", .component, chars "B2", .conventions, 1, [], [],
          [], [], none⟩]) (chars "C:B") = true ∧
    (chars "C:B" ∈ getBacklinks (applyOps
      [.add ⟨chars "C:A", .component, chars "A", .conventions, 1, [], [],
          [chars "C:B"], [], none⟩,
        .add ⟨chars "C:B", .component, chars "B", .conventions, 1, [], [],
          [chars "C:A"], [], none⟩,
        .add ⟨chars "C:B", .component, chars "B2", .conventions, 1, [], [],
          [], [], none⟩]) (chars "C:A") ↔
      chars "C:A" ∈ getReferences (applyOps
      [.add ⟨chars "C:A", .component, chars "A", .conventions, 1, [], [],
          [chars "C:B"], [], none⟩,
        .add ⟨chars "C:B", .component, chars "B", .conventions, 1, [], [],
          [chars "C:A"], [], none⟩,
        .add ⟨chars "C:B", .component, chars "B2", .conventions, 1, [], [],
          [], [], none⟩]) (chars "C:B")) :=
  ⟨by decide, by decide,
    claim_C1
      [.add ⟨chars "C:A", .component, chars "A", .conventions, 1, [], [],
          [chars "C:B"], [], none⟩,
        .add ⟨chars "C:B", .component, chars "B", .conventions, 1, [], [],
          [chars "C:A"], [], none⟩,
        .add ⟨chars "C:B", .component, chars "B2", .conventions, 1, [], [],
          [], [], none⟩]
      (chars "C:A") (chars "C:B") (by decide) (by decide)⟩

theorem addElementReferences_elements (s : IndexState) (e : DocElement) :
    (addElementReferences s e).elements = s.elements := rfl

theorem removeElementReferences_elements (s : IndexState) (i : List Char) :
    (removeElementReferences s i).elements = s.elements := rfl

theorem mget_references_addElementReferences (s : IndexState) (e : DocElement)
    (a : List Char) :
    mget (addElementReferences s e).references a
      = if e.id = a then setOf e.refs else mget s.references a := by
  unfold addElementReferences
  dsimp only
  unfold mget
  rw [alLookup_insert]
  by_cases h : e.id = a <;> simp [h]

theorem mem_references_removeElementReferences (s : IndexState) (i a x : List Char)
    (hwr : wfm s.references) (hxi : x ≠ i) (hai : a ≠ i) :
    (x ∈ mget (removeElementReferences s i).references a ↔ x ∈ mget s.references a) := by
  unfold removeElementReferences
  dsimp only
  have hrefs1 : ∀ z, mget (if alContains s.references i = true
        then alErase s.references i else s.references) z
      = if z = i then [] else mget s.references z := by
    intro z
    by_cases hc : alContains s.references i = true
    · rw [if_pos hc]
      unfold mget
      rw [alLookup_erase _ _ _ hwr]
      by_cases hz : z = i
      · simp [hz]
      · have hzi : ¬ i = z := fun h => hz h.symm
        simp [hzi, hz]
    · rw [if_neg hc]
      by_cases hz : z = i
      · subst hz
        have hc2 : alLookup s.references z = none := by
          cases h2 : alLookup s.references z with
          | none => rfl
          | some v => simp [alContains, h2] at hc
        simp [mget, hc2]
      · simp [hz]
  have hwr1 : wfm (if alContains s.references i = true
      then alErase s.references i else s.references) := by
    split
    · exact wfm_erase _ hwr
    · exact hwr
  split
  · rw [mget_foldl_pointwise _ (fun l => setDiscard l i)
      (fun m k k' _ => mget_mapSetDiscardKeep m k i k')
      (fun m k hm => wfm_mapSetDiscardKeep k i hm)
      (fun l => setDiscard_idem l i) _ _ a hwr1]
    split
    · rw [hrefs1 a, if_neg hai]
      simp [mem_setDiscard, hxi]
    · rw [hrefs1 a, if_neg hai]
  · rw [hrefs1 a, if_neg hai]

theorem alLookup_elements_removeElement (s : IndexState) (i a : List Char)
    (hwe : wfm s.elements) :
    alLookup (removeElement s i).1.elements a
      = if i = a then none else alLookup s.elements a := by
  unfold removeElement
  cases he : alLookup s.elements i with
  | none =>
    dsimp only
    by_cases h : i = a
    · rw [if_pos h, ← h]
      exact he
    · rw [if_neg h]
  | some e =>
    dsimp only
    rw [(removeFromSearchIndex_graph_eq _ e).2.2, removeElementReferences_elements]
    dsimp only
    exact alLookup_erase _ _ _ hwe

theorem mem_references_removeElement (t : IndexState) (i a x : List Char)
    (hw : IndexWf t) (hxi : x ≠ i) (hai : a ≠ i) :
    (x ∈ mget (removeElement t i).1.references a ↔ x ∈ mget t.references a) := by
  unfold removeElement
  cases he : alLookup t.elements i with
  | none => exact Iff.rfl
  | some e =>
    dsimp only
    rw [(removeFromSearchIndex_graph_eq _ e).1]
    exact mem_references_removeElementReferences _ i a x hw.2.1 hxi hai

theorem alLookup_elements_addElement (s : IndexState) (e : DocElement) (a : List Char)
    (hwe : wfm s.elements) :
    alLookup (addElement s e).elements a
      = if e.id = a then some e else alLookup s.elements a := by
  unfold addElement
  dsimp only
  rw [(addToSearchIndex_graph_eq _ e).2.2, addElementReferences_elements]
  dsimp only
  rw [alLookup_insert]
  by_cases hc : alContains s.elements e.id = true
  · rw [if_pos hc, alLookup_elements_removeElement s e.id a hwe]
    by_cases h : e.id = a <;> simp [h]
  · rw [if_neg hc]

theorem mget_references_addElement (t : IndexState) (e : DocElement) (b : List Char) :
    mget (addElement t e).references b
      = if e.id = b then setOf e.refs
        else mget (if alContains t.elements e.id = true
          then (removeElement t e.id).1 else t).references b := by
  unfold addElement
  dsimp only
  unfold mget
  rw [congrArg (fun m => alLookup m b) (addToSearchIndex_graph_eq _ e).1]
  have h2 := mget_references_addElementReferences
    { (if alContains t.elements e.id = true then (removeElement t e.id).1 else t) with
      elements := alInsert (if alContains t.elements e.id = true
        then (removeElement t e.id).1 else t).elements e.id e,
      fileElements := mapSetAdd (if alContains t.elements e.id = true
        then (removeElement t e.id).1 else t).fileElements e.file.value e.id } e b
  unfold mget at h2
  exact h2

theorem J_step_addElement (t : IndexState) (e : DocElement) (X : List Char)
    (hne : e.id ≠ X) (hw : IndexWf t)
    (hJ1 : alContains t.elements X = false)
    (hJ2 : ∀ a z, alLookup t.elements a = some z → X ∈ setOf z.refs →
      X ∈ mget t.references a) :
    alContains (addElement t e).elements X = false ∧
    ∀ a z, alLookup (addElement t e).elements a = some z → X ∈ setOf z.refs →
      X ∈ mget (addElement t e).references a := by
  constructor
  · unfold alContains
    rw [alLookup_elements_addElement t e X hw.1, if_neg hne]
    exact hJ1
  · intro a z h hX
    rw [alLookup_elements_addElement t e a hw.1] at h
    rw [mget_references_addElement]
    by_cases hb : e.id = a
    · rw [if_pos hb] at h
      rw [if_pos hb]
      rw [Option.some.injEq] at h
      rw [h]
      exact hX
    · rw [if_neg hb] at h
      rw [if_neg hb]
      have hXt := hJ2 a z h hX
      by_cases hc : alContains t.elements e.id = true
      · rw [if_pos hc]
        exact (mem_references_removeElement t e.id a X hw
          (fun hh => hne hh.symm) (fun hh => hb hh.symm)).mpr hXt
      · rw [if_neg hc]
        exact hXt

theorem J_step_removeElement (t : IndexState) (i X : List Char)
    (hw : IndexWf t)
    (hJ1 : alContains t.elements X = false)
    (hJ2 : ∀ a z, alLookup t.elements a = some z → X ∈ setOf z.refs →
      X ∈ mget t.references a) :
    alContains (removeElement t i).1.elements X = false ∧
    ∀ a z, alLookup (removeElement t i).1.elements a = some z → X ∈ setOf z.refs →
      X ∈ mget (removeElement t i).1.references a := by
  constructor
  · unfold alContains
    rw [alLookup_elements_removeElement t i X hw.1]
    split
    · rfl
    · exact hJ1
  · intro a z h hX
    rw [alLookup_elements_removeElement t i a hw.1] at h
    by_cases hia : i = a
    · rw [if_pos hia] at h
      exact Option.noConfusion h
    · rw [if_neg hia] at h
      have hXt := hJ2 a z h hX
      by_cases hiX : i = X
      · subst hiX
        have hnone : alLookup t.elements i = none := by
          cases h2 : alLookup t.elements i with
          | none => rfl
          | some v => simp [alContains, h2] at hJ1
        unfold removeElement
        rw [hnone]
        exact hXt
      · exact (mem_references_removeElement t i a X hw
          (fun hh => hiX hh.symm) (fun hh => hia hh.symm)).mpr hXt

theorem noAddX_invariant (X : List Char) (ops : List IndexOp)
    (hX : ∀ e, IndexOp.add e ∈ ops → e.id ≠ X) :
    alContains (applyOps ops).elements X = false ∧
    ∀ a z, alLookup (applyOps ops).elements a = some z → X ∈ setOf z.refs →
      X ∈ mget (applyOps ops).references a := by
  unfold applyOps
  have key : ∀ (l : List IndexOp) (s : IndexState),
      (∀ e, IndexOp.add e ∈ l → e.id ≠ X) →
      RefGraphInv s → IndexWf s →
      alContains s.elements X = false →
      (∀ a z, alLookup s.elements a = some z → X ∈ setOf z.refs →
        X ∈ mget s.references a) →
      alContains (l.foldl applyOp s).elements X = false ∧
      ∀ a z, alLookup (l.foldl applyOp s).elements a = some z → X ∈ setOf z.refs →
        X ∈ mget (l.foldl applyOp s).references a := by
    intro l
    induction l with
    | nil => intro s _ _ _ h1 h2; exact ⟨h1, h2⟩
    | cons op rest ih =>
      intro s hXl hinv hwf h1 h2
      have hXr : ∀ e, IndexOp.add e ∈ rest → e.id ≠ X :=
        fun e he => hXl e (List.mem_cons_of_mem _ he)
      cases op with
      | add e =>
        have hne : e.id ≠ X := hXl e (List.mem_cons_self _ _)
        obtain ⟨hinv', hwf'⟩ := inv_addElement s e hinv hwf
        obtain ⟨h1', h2'⟩ := J_step_addElement s e X hne hwf h1 h2
        exact ih (addElement s e) hXr hinv' hwf' h1' h2'
      | remove i =>
        obtain ⟨hinv', hwf'⟩ := inv_removeElement s i hinv hwf
        obtain ⟨h1', h2'⟩ := J_step_removeElement s i X hwf h1 h2
        exact ih ((removeElement s i).1) hXr hinv' hwf' h1' h2'
  exact key ops emptyIndex hX refGraphInv_emptyIndex indexWf_emptyIndex rfl
    (fun a z h => Option.noConfusion h)

/-- **C10** counterexample: add `C:X`, add `C:A` with refs `[C:X]`, then
remove `C:X`.  The index still holds `C:A` whose stored `refs` list `C:X`,
`C:X` is absent, yet `get_backlinks(C:X)` is empty — `remove_element`
deleted the backlink entry and stripped `C:X` from `C:A`'s forward
references, so backlink entries are NOT retained for removed targets. -/
theorem claim_C10_counterexample :
    (alLookup (applyOps
        [.add ⟨chars "C:X", .component, chars "X", .conventions, 1, [], [], [], [], none⟩,
         .add ⟨chars "C:A", .component, chars "A", .conventions, 1, [], [],
            [chars "C:X"], [], none⟩,
         .remove (chars "C:X")]).elements (chars "C:A")).map DocElement.refs
      = some [chars "C:X"] ∧
    hasElement (applyOps
        [.add ⟨chars "C:X", .component, chars "X", .conventions, 1, [], [], [], [], none⟩,
         .add ⟨chars "C:A", .component, chars "A", .conventions, 1, [], [],
            [chars "C:X"], [], none⟩,
         .remove (chars "C:X")]) (chars "C:X") = false ∧
    chars "C:A" ∉ getBacklinks (applyOps
        [.add ⟨chars "C:X", .component, chars "X", .conventions, 1, [], [], [], [], none⟩,
         .add ⟨chars "C:A", .component, chars "A", .conventions, 1, [], [],
            [chars "C:X"], [], none⟩,
         .remove (chars "C:X")]) (chars "C:X") := by
  decide

/-- **C10** (amended): if no operation in the sequence ever ADDS an element
with id `X` (so `X` was never indexed; removals of `X` are no-ops), then for
every indexed element `A` whose stored `refs` contain `X`, the backlink
entry for the absent id `X` exists and contains `A`: `get_backlinks(X)`
returns `A` without requiring `X` to be an indexed element.  (If `X` was
indexed and then removed, the entry is destroyed — see the counterexample.) -/
theorem claim_C10 (ops : List IndexOp) (A X : List Char) (eA : DocElement)
    (hX : ∀ e, IndexOp.add e ∈ ops → e.id ≠ X)
    (hA : alLookup (applyOps ops).elements A = some eA)
    (hXr : X ∈ setOf eA.refs) :
    hasElement (applyOps ops) X = false ∧
    A ∈ getBacklinks (applyOps ops) X := by
  obtain ⟨h1, h2⟩ := noAddX_invariant X ops hX
  exact ⟨h1, ((inv_applyOps ops).1 A X).mp (h2 A eA hA hXr)⟩

/-- **C10** witness: a single add of `C:A` referencing the never-indexed
`C:X`; the backlink entry for `C:X` contains `C:A`. -/
theorem claim_C10_witness :
    hasElement (applyOps
      [.add ⟨chars "C:A", .component, chars "A", .conventions, 1, [], [],
          [chars "C:X"], [], none⟩]) (chars "C:X") = false ∧
    chars "C:A" ∈ getBacklinks (applyOps
      [.add ⟨chars "C:A", .component, chars "A", .conventions, 1, [], [],
          [chars "C:X"], [], none⟩]) (chars "C:X") :=
  claim_C10
    [.add ⟨chars "C:A", .component, chars "A", .conventions, 1, [], [],
        [chars "C:X"], [], none⟩]
    (chars "C:A") (chars "C:X")
    ⟨chars "C:A", .component, chars "A", .conventions, 1, [], [],
        [chars "C:X"], [], none⟩
    (by
      intro e he
      rw [List.mem_singleton] at he
      injection he with h
      rw [h]
      decide)
    (by decide) (by decide)

theorem toNat_ofNat_valid {n : Nat} (h : n < 55296) : (Char.ofNat n).toNat = n := by
  unfold Char.ofNat
  rw [dif_pos (Or.inl h)]
  rfl

theorem char_eq_of_toNat_eq {c d : Char} (h : c.toNat = d.toNat) : c = d :=
  Char.eq_of_val_eq (UInt32.ext h)

theorem lowerChar_toNat (c : Char) :
    (lowerChar c).toNat = if 65 ≤ c.toNat ∧ c.toNat ≤ 90 then c.toNat + 32
      else c.toNat := by
  unfold lowerChar Char.toLower
  dsimp only
  split
  · next h => exact toNat_ofNat_valid (by omega)
  · rfl

theorem upperChar_toNat (c : Char) :
    (upperChar c).toNat = if 97 ≤ c.toNat ∧ c.toNat ≤ 122 then c.toNat - 32
      else c.toNat := by
  unfold upperChar Char.toUpper
  dsimp only
  split
  · next h => exact toNat_ofNat_valid (by omega)
  · rfl

theorem upperChar_eq_S_iff (c : Char) : upperChar c = 'S' ↔ lowerChar c = 's' := by
  constructor
  · intro h
    have h1 := congrArg Char.toNat h
    rw [upperChar_toNat] at h1
    apply char_eq_of_toNat_eq
    rw [lowerChar_toNat]
    rw [show ('S' : Char).toNat = 83 from by decide] at h1
    rw [show ('s' : Char).toNat = 115 from by decide]
    split at h1 <;> split <;> omega
  · intro h
    have h1 := congrArg Char.toNat h
    rw [lowerChar_toNat] at h1
    apply char_eq_of_toNat_eq
    rw [upperChar_toNat]
    rw [show ('s' : Char).toNat = 115 from by decide] at h1
    rw [show ('S' : Char).toNat = 83 from by decide]
    split at h1 <;> split <;> omega

theorem lowerChar_eq_colon_iff (c : Char) : lowerChar c = ':' ↔ c = ':' := by
  constructor
  · intro h
    have h1 := congrArg Char.toNat h
    rw [lowerChar_toNat] at h1
    rw [show ((':' : Char)).toNat = 58 from by decide] at h1
    apply char_eq_of_toNat_eq
    rw [show ((':' : Char)).toNat = 58 from by decide]
    split at h1 <;> omega
  · intro h
    rw [h]
    decide

theorem isSpacePy_eq_false_of_lowerChar_r {c : Char} (h : lowerChar c = 'r') :
    isSpacePy c = false := by
  cases hs : isSpacePy c
  · rfl
  · exfalso
    simp only [isSpacePy, Bool.or_eq_true, decide_eq_true_eq] at hs
    rcases hs with ((((rfl | rfl) | rfl) | rfl) | rfl) | rfl <;> exact absurd h (by decide)

theorem ne_hash_of_lowerChar_r {c : Char} (h : lowerChar c = 'r') : ¬ (c = '#') := by
  intro hc
  subst hc
  exact absurd h (by decide)

theorem takeWhile_append_all {p : Char → Bool} {l1 : List Char} (l2 : List Char)
    (h : ∀ c ∈ l1, p c = true) :
    (l1 ++ l2).takeWhile p = l1 ++ l2.takeWhile p := by
  induction l1 with
  | nil => simp
  | cons c t ih =>
    simp only [List.cons_append, List.takeWhile_cons, h c (List.mem_cons_self c t),
      if_true]
    rw [ih (fun x hx => h x (List.mem_cons_of_mem c hx))]

theorem takeWhile_eq_self_of_all {p : Char → Bool} {l : List Char}
    (h : ∀ c ∈ l, p c = true) : l.takeWhile p = l := by
  have h2 := takeWhile_append_all (p := p) [] h
  simpa using h2

theorem all_of_takeWhile_length {p : Char → Bool} {l : List Char}
    (h : (l.takeWhile p).length = l.length) : ∀ c ∈ l, p c = true := by
  have heq : l.takeWhile p = l := (List.takeWhile_prefix p).eq_of_length h
  intro c hc
  rw [← heq] at hc
  exact List.mem_takeWhile_imp hc

theorem lastNlIdx_eq_none {l : List Char} (h : '\n' ∉ l) : lastNlIdx l = none := by
  unfold lastNlIdx
  rw [List.findIdx?_eq_none_iff.mpr (fun c hc => by
    simp only [decide_eq_false_iff_not]
    intro hcn
    rw [hcn] at hc
    exact h (List.mem_reverse.mp hc))]

theorem matchMarkerCI_of_lower : ∀ (mk t : List Char),
    lower (t.take mk.length) = lower mk → matchMarkerCI mk t = true := by
  intro mk
  induction mk with
  | nil => intro t _; rfl
  | cons m ms ih =>
    intro t h
    cases t with
    | nil =>
      exfalso
      have := congrArg List.length h
      simp [lower] at this
    | cons c cs =>
      simp only [List.length_cons, List.take_succ_cons, lower, List.map_cons,
        List.cons.injEq] at h
      simp only [matchMarkerCI, Bool.and_eq_true, decide_eq_true_eq]
      refine ⟨h.1, ih cs ?_⟩
      simp only [lower]
      exact h.2

theorem matchReferencesColon_some {t : List Char} {k : Nat}
    (h : matchReferencesColon t = some k) :
    ∃ name rest, t = name ++ rest ∧ name.length = k ∧
      (lower name = chars "references:" ∨ lower name = chars "reference:") := by
  unfold matchReferencesColon at h
  by_cases hmm : matchMarkerCI (chars "REFERENCE") t = true
  case neg => rw [if_neg hmm] at h; exact Option.noConfusion h
  case pos =>
    rw [if_pos hmm] at h
    have hl9 := matchMarkerCI_lower (chars "REFERENCE") t hmm
    rw [show (chars "REFERENCE").length = 9 from rfl] at hl9
    have h9 : lower (t.take 9) = chars "reference" := by
      rw [hl9]
      decide
    cases ht : t.drop 9 with
    | nil => rw [ht] at h; exact Option.noConfusion h
    | cons c cs =>
      rw [ht] at h
      dsimp only at h
      have htlen : 9 < t.length := by
        have h2 := congrArg List.length ht
        simp only [List.length_drop, List.length_cons] at h2
        omega
      have htake9 : (t.take 9).length = 9 := by
        rw [List.length_take]
        omega
      have ht9 : t = t.take 9 ++ c :: cs := by
        rw [← ht, List.take_append_drop]
      by_cases hS : upperChar c = 'S'
      · rw [if_pos hS] at h
        cases cs with
        | nil => exact Option.noConfusion h
        | cons c2 cs2 =>
          dsimp only at h
          by_cases hc2 : c2 = ':'
          · rw [if_pos hc2] at h
            rw [Option.some.injEq] at h
            refine ⟨t.take 9 ++ [c, c2], cs2, ?_, ?_, Or.inl ?_⟩
            · rw [List.append_assoc, List.cons_append, List.cons_append,
                List.nil_append]
              exact ht9
            · simp only [List.length_append, htake9, List.length_cons,
                List.length_nil]
              omega
            · have hcs : lowerChar c = 's' := (upperChar_eq_S_iff c).mp hS
              simp only [lower, List.map_append, List.map_cons, List.map_nil]
              simp only [lower] at h9
              rw [h9, hcs, hc2]
              decide
          · rw [if_neg hc2] at h
            exact Option.noConfusion h
      · rw [if_neg hS] at h
        by_cases hc : c = ':'
        · rw [if_pos hc] at h
          rw [Option.some.injEq] at h
          refine ⟨t.take 9 ++ [c], cs, ?_, ?_, Or.inr ?_⟩
          · rw [List.append_assoc, List.cons_append, List.nil_append]
            exact ht9
          · simp only [List.length_append, htake9, List.length_cons,
              List.length_nil]
            omega
          · simp only [lower, List.map_append, List.map_cons, List.map_nil]
            simp only [lower] at h9
            rw [h9, hc]
            decide
        · rw [if_neg hc] at h
          exact Option.noConfusion h

theorem matchReferencesColon_of_lower {name : List Char} (rest : List Char)
    (h : lower name = chars "references:" ∨ lower name = chars "reference:") :
    matchReferencesColon (name ++ rest) = some name.length := by
  rcases h with h | h
  · have hlen : name.length = 11 := by
      have h2 := congrArg List.length h
      simpa [lower] using h2
    have hmk : matchMarkerCI (chars "REFERENCE") (name ++ rest) = true := by
      apply matchMarkerCI_of_lower
      rw [show (chars "REFERENCE").length = 9 from rfl]
      rw [List.take_append_of_le_length (by omega)]
      have h3 : lower (name.take 9) = (lower name).take 9 := by
        simp [lower, List.map_take]
      rw [h3, h]
      decide
    have hdrop : (name ++ rest).drop 9 = name.drop 9 ++ rest :=
      List.drop_append_of_le_length (by omega)
    have hld : lower (name.drop 9) = chars "s:" := by
      have h3 : lower (name.drop 9) = (lower name).drop 9 := by
        simp [lower, List.map_drop]
      rw [h3, h]
      decide
    cases hn9 : name.drop 9 with
    | nil =>
      rw [hn9] at hld
      exact absurd hld (by decide)
    | cons c9 t9 =>
      cases t9 with
      | nil =>
        rw [hn9] at hld
        exact absurd hld (by simp [lower, chars])
      | cons c10 t10 =>
        cases t10 with
        | cons c11 t11 =>
          rw [hn9] at hld
          exact absurd hld (by simp [lower, chars])
        | nil =>
          rw [hn9] at hld
          rw [show chars "s:" = 's' :: [':'] from rfl] at hld
          simp only [lower, List.map_cons, List.map_nil, List.cons.injEq,
            and_true] at hld
          obtain ⟨h9c, h10c⟩ := hld
          unfold matchReferencesColon
          rw [if_pos hmk, hdrop, hn9]
          simp only [List.cons_append, List.nil_append]
          rw [if_pos ((upperChar_eq_S_iff c9).mpr h9c)]
          rw [if_pos ((lowerChar_eq_colon_iff c10).mp h10c)]
          rw [hlen]
  · have hlen : name.length = 10 := by
      have h2 := congrArg List.length h
      simpa [lower] using h2
    have hmk : matchMarkerCI (chars "REFERENCE") (name ++ rest) = true := by
      apply matchMarkerCI_of_lower
      rw [show (chars "REFERENCE").length = 9 from rfl]
      rw [List.take_append_of_le_length (by omega)]
      have h3 : lower (name.take 9) = (lower name).take 9 := by
        simp [lower, List.map_take]
      rw [h3, h]
      decide
    have hdrop : (name ++ rest).drop 9 = name.drop 9 ++ rest :=
      List.drop_append_of_le_length (by omega)
    have hld : lower (name.drop 9) = chars ":" := by
      have h3 : lower (name.drop 9) = (lower name).drop 9 := by
        simp [lower, List.map_drop]
      rw [h3, h]
      decide
    cases hn9 : name.drop 9 with
    | nil =>
      rw [hn9] at hld
      exact absurd hld (by decide)
    | cons c9 t9 =>
      cases t9 with
      | cons c10 t10 =>
        rw [hn9] at hld
        exact absurd hld (by simp [lower, chars])
      | nil =>
        rw [hn9] at hld
        rw [show chars ":" = [':'] from rfl] at hld
        simp only [lower, List.map_cons, List.map_nil, List.cons.injEq,
          and_true] at hld
        have h9c : c9 = ':' := (lowerChar_eq_colon_iff c9).mp hld
        unfold matchReferencesColon
        rw [if_pos hmk, hdrop, hn9]
        simp only [List.cons_append, List.nil_append]
        rw [if_neg (by rw [h9c]; decide)]
        rw [if_pos h9c, hlen]

theorem refSectionMatchLen_isSome_iff (line : List Char) (hnl : '\n' ∉ line) :
    (refSectionMatchLen line).isSome = true ↔ refHeaderLineSpec line := by
  constructor
  · intro h
    unfold refSectionMatchLen at h
    dsimp only at h
    set nA := (line.takeWhile (fun c => c = '#')).length with hnA
    set t1 := line.drop nA with ht1
    set w1 := t1.takeWhile isSpacePy with hw1
    set t2 := t1.drop w1.length with ht2
    by_cases hn : 1 ≤ nA ∧ nA ≤ 6
    case neg =>
      rw [if_neg hn] at h
      exact absurd h (by decide)
    case pos =>
      rw [if_pos hn] at h
      cases hm : matchReferencesColon t2 with
      | none =>
        rw [hm] at h
        dsimp only at h
        simp at h
      | some k =>
        rw [hm] at h
        dsimp only at h
        set t3 := t2.drop k with ht3
        set w2 := t3.takeWhile isSpacePy with hw2
        have hnl3 : '\n' ∉ t3 := by
          intro hmem
          apply hnl
          apply List.drop_subset _ line
          rw [← ht1]
          apply List.drop_subset _ t1
          rw [← ht2]
          exact List.drop_subset _ t2 hmem
        by_cases hfull : t3.length = w2.length
        case neg =>
          rw [if_neg hfull] at h
          rw [lastNlIdx_eq_none (fun hmem => hnl3 ((List.takeWhile_prefix _).subset
            (hw2 ▸ hmem)))] at h
          dsimp only at h
          simp at h
        case pos =>
          rw [if_pos hfull] at h
          have htrail : ∀ c ∈ t3, isSpacePy c = true := by
            apply all_of_takeWhile_length
            rw [← hw2]
            exact hfull.symm
          obtain ⟨name, rest, ht2eq, hklen, hname⟩ := matchReferencesColon_some hm
          have htrest : t3 = rest := by
            rw [ht3, ht2eq, ← hklen, List.drop_left]
          refine ⟨nA, w1, name, t3, hn.1, hn.2, ?_, ?_, htrail, hname⟩
          · have e1 : line = line.takeWhile (fun c => c = '#') ++ t1 := by
              rw [ht1, hnA]
              exact (append_drop_length_takeWhile _ _).symm
            have e2 : line.takeWhile (fun c => c = '#') = List.replicate nA '#' := by
              rw [hnA]
              refine List.eq_replicate.mpr ⟨rfl, fun b hb => ?_⟩
              have := List.mem_takeWhile_imp hb
              simpa using this
            have e3 : t1 = w1 ++ t2 := by
              rw [ht2, hw1]
              exact (append_drop_length_takeWhile _ _).symm
            rw [e1, e2, e3, ht2eq, htrest]
            simp [List.append_assoc]
          · intro c hc
            rw [hw1] at hc
            exact List.mem_takeWhile_imp hc
  · rintro ⟨n, ws, name, trail, hn1, hn6, hline, hws, htrail, hname⟩
    obtain ⟨h0, nrest, hnm, hh0⟩ :
        ∃ h0 nrest, name = h0 :: nrest ∧ lowerChar h0 = 'r' := by
      rcases hname with h | h
      · cases hnm : name with
        | nil => rw [hnm] at h; exact absurd h (by decide)
        | cons a b =>
          refine ⟨a, b, rfl, ?_⟩
          rw [hnm, show chars "references:" = 'r' :: chars "eferences:" from rfl] at h
          simp only [lower, List.map_cons, List.cons.injEq] at h
          exact h.1
      · cases hnm : name with
        | nil => rw [hnm] at h; exact absurd h (by decide)
        | cons a b =>
          refine ⟨a, b, rfl, ?_⟩
          rw [hnm, show chars "reference:" = 'r' :: chars "eference:" from rfl] at h
          simp only [lower, List.map_cons, List.cons.injEq] at h
          exact h.1
    subst hline
    rw [show (List.replicate n '#' ++ ws ++ name ++ trail)
        = List.replicate n '#' ++ (ws ++ (name ++ trail)) from by
      simp [List.append_assoc]]
    unfold refSectionMatchLen
    have hfirst : (ws ++ (name ++ trail)).takeWhile (fun c => c = '#') = [] := by
      cases hws0 : ws with
      | cons w wt =>
        have hw := hws w (by rw [hws0]; exact List.mem_cons_self _ _)
        have hwne : ¬ (w = '#') := by
          intro hc
          rw [hc] at hw
          exact absurd hw (by decide)
        simp [List.takeWhile_cons, hwne]
      | nil =>
        rw [List.nil_append, hnm]
        simp [List.takeWhile_cons, ne_hash_of_lowerChar_r hh0]
    have hhash : (List.replicate n '#' ++ (ws ++ (name ++ trail))).takeWhile
        (fun c => c = '#') = List.replicate n '#' := by
      rw [takeWhile_append_all _ (fun c hc => by
        simp [List.eq_of_mem_replicate hc]), hfirst, List.append_nil]
    rw [hhash, List.length_replicate]
    rw [if_pos ⟨hn1, hn6⟩]
    dsimp only
    rw [List.drop_left' (List.length_replicate n '#')]
    have hws1 : (ws ++ (name ++ trail)).takeWhile isSpacePy = ws := by
      rw [takeWhile_append_all _ hws]
      rw [hnm]
      simp [List.takeWhile_cons, isSpacePy_eq_false_of_lowerChar_r hh0]
    rw [hws1, List.drop_left]
    rw [matchReferencesColon_of_lower trail hname]
    dsimp only
    rw [List.drop_left]
    rw [takeWhile_eq_self_of_all htrail]
    rw [if_pos rfl]
    rfl

theorem colon_mem_of_matchReferencesColon {t : List Char} {k : Nat}
    (h : matchReferencesColon t = some k) : ':' ∈ t := by
  obtain ⟨name, rest, hteq, hlen, hname⟩ := matchReferencesColon_some h
  have hmem : ':' ∈ lower name := by
    rcases hname with h' | h' <;> rw [h'] <;> decide
  simp only [lower] at hmem
  obtain ⟨c, hc, hlc⟩ := List.mem_map.mp hmem
  have hcc := (lowerChar_eq_colon_iff c).mp hlc
  rw [hteq]
  exact List.mem_append_left _ (hcc ▸ hc)

theorem colon_mem_of_refSectionMatchLen {t : List Char} {k : Nat}
    (h : refSectionMatchLen t = some k) : ':' ∈ t := by
  unfold refSectionMatchLen at h
  dsimp only at h
  by_cases hn : 1 ≤ (t.takeWhile (fun c => c = '#')).length ∧
      (t.takeWhile (fun c => c = '#')).length ≤ 6
  case neg =>
    rw [if_neg hn] at h
    exact Option.noConfusion h
  case pos =>
    rw [if_pos hn] at h
    cases hm : matchReferencesColon ((t.drop (t.takeWhile (fun c => c = '#')).length).drop
        ((t.drop (t.takeWhile (fun c => c = '#')).length).takeWhile isSpacePy).length) with
    | none =>
      rw [hm] at h
      exact Option.noConfusion h
    | some k2 =>
      have hmem := colon_mem_of_matchReferencesColon hm
      exact List.drop_subset _ _ (List.drop_subset _ _ hmem)

theorem refSectionScanGo_eq_nil_of_no_colon :
    ∀ (fuel : Nat) (als : Bool) (pos : Nat) (t : List Char), ':' ∉ t →
      refSectionScanGo fuel als pos t = [] := by
  intro fuel
  induction fuel with
  | zero => intro als pos t _; cases t <;> rfl
  | succ f ih =>
    intro als pos t h
    cases t with
    | nil => rfl
    | cons c rest =>
      have hrest : ':' ∉ rest := fun hm => h (List.mem_cons_of_mem _ hm)
      unfold refSectionScanGo
      cases als with
      | false =>
        rw [if_neg (by decide)]
        exact ih _ _ rest hrest
      | true =>
        rw [if_pos rfl]
        cases hm : refSectionMatchLen (c :: rest) with
        | some len => exact absurd (colon_mem_of_refSectionMatchLen hm) h
        | none =>
          dsimp only
          exact ih _ _ rest hrest

theorem findExplicitReferences_eq_nil_of_no_colon (body : List Char)
    (h : ':' ∉ body) : findExplicitReferences body = [] := by
  have hscan : refSectionScan true 0 body = [] :=
    refSectionScanGo_eq_nil_of_no_colon body.length true 0 body h
  unfold findExplicitReferences
  rw [hscan]  
  rfl

/-- **C6** (amended): the explicit-references recognition rule, universally:
(i) a single heading line (no embedded newline) is accepted by
`REFERENCES_SECTION_PATTERN` **iff** it is one to six `'#'`s, optional
whitespace, `References`/`Reference` case-insensitively followed by a
**mandatory** colon, and optional trailing whitespace; (ii) a body with no
colon at all yields no explicit references; (iii) concretely, colon-bearing
`References:` headings (any level, any case, trailing blanks) yield their
`- `/`* ` list items as explicit references, while `## References` without
the colon (or with extra words) yields none — its IDs are found only
inline. -/
theorem claim_C6 :
    (∀ line : List Char, '\n' ∉ line →
      ((refSectionMatchLen line).isSome = true ↔ refHeaderLineSpec line)) ∧
    (∀ body : List Char, ':' ∉ body → findExplicitReferences body = []) ∧
    (findExplicitReferences (chars "## References:\n- C:Foo - desc\n")).map
      (fun r => (r.targetId, r.refType, r.context))
      = [(chars "C:Foo", RefType.explicit, chars "C:Foo - desc")] ∧
    (findExplicitReferences (chars "### reference:\n* D:Bar\n")).map
      (fun r => (r.targetId, r.refType)) = [(chars "D:Bar", RefType.explicit)] ∧
    (findExplicitReferences (chars "## REFERENCES:  \n- T:0001\n")).map
      Reference.targetId = [chars "T:0001"] ∧
    findExplicitReferences (chars "## References extra:\n- C:Foo\n") = [] ∧
    findExplicitReferences (chars "## References\n- C:Foo - desc\n") = [] ∧
    (detectReferencesInText (chars "## References:\n- C:Foo x\n\nUses C:Foo.")).map
      (fun r => (r.targetId, r.refType)) = [(chars "C:Foo", RefType.explicit)] := by
  refine ⟨refSectionMatchLen_isSome_iff, findExplicitReferences_eq_nil_of_no_colon, ?_⟩
  decide

/-- **C6** witness: the line characterization applied at `##  References:  `
(accepted) and the colon-necessity applied at a colon-free body. -/
theorem claim_C6_witness :
    ((refSectionMatchLen (chars "##  References:  ")).isSome = true ↔
      refHeaderLineSpec (chars "##  References:  ")) ∧
    findExplicitReferences (chars "- C.Foo item\nno header here") = [] :=
  ⟨claim_C6.1 (chars "##  References:  ") (by decide),
   claim_C6.2.1 (chars "- C.Foo item\nno header here") (by decide)⟩

end Project1
